import Mathlib

/-!
Verification development for the ux-mentor repository.

The code under scrutiny is `src/app/api/analyze/route.ts`, which contains the
two components the specification describes: the upload validator
(`validateFile`) and the response normalizer (`parseOpenRouterResponse`).
Both are shallowly embedded below, working over `List Char` as the model of
JavaScript strings (JavaScript strings are modelled as sequences of Unicode
scalar values; lone UTF-16 surrogates, which Lean strings cannot represent,
are replaced by U+FFFD during unicode-escape decoding).

JavaScript JSON numbers are IEEE doubles; the embedding keeps the parsed
numeric literal verbatim instead, which is exact for every literal and loses
only double rounding/overflow identifications that no claim depends on.
-/

namespace UXMentor

/-! ## JavaScript string primitives -/

/-- The character class of the JavaScript regular-expression escape backslash-s,
which is also the set of characters removed by the trim method of strings. -/
def jsWhitespaceChar (c : Char) : Bool :=
  let n := c.toNat
  n = 0x20 || n = 0x09 || n = 0x0A || n = 0x0D ||
  n = 0x0B || n = 0x0C || n = 0xA0 || n = 0x1680 ||
  (0x2000 ≤ n && n ≤ 0x200A) ||
  n = 0x2028 || n = 0x2029 || n = 0x202F || n = 0x205F ||
  n = 0x3000 || n = 0xFEFF

/-- The decimal digits, the character class of the regular-expression escape
backslash-d (same set as Char.isDigit). -/
def isDigitChar (c : Char) : Bool :=
  48 ≤ c.toNat && c.toNat ≤ 57

/-- Model of the JavaScript string trim method. -/
def jsTrim (l : List Char) : List Char :=
  ((l.dropWhile jsWhitespaceChar).reverse.dropWhile jsWhitespaceChar).reverse

/-- Model of the JavaScript string split method with separator a newline:
segments between newline characters, empty segments preserved. -/
def splitNl : List Char → List (List Char)
  | [] => [[]]
  | c :: cs =>
    if c = '\n' then
      [] :: splitNl cs
    else
      match splitNl cs with
      | [] => [[c]]
      | l :: ls => (c :: l) :: ls

/-- Model of the JavaScript string includes method (substring containment). -/
def containsSub (needle : List Char) : List Char → Bool
  | [] => needle.isEmpty
  | c :: rest => needle.isPrefixOf (c :: rest) || containsSub needle rest

/-! ## Upload validator (validateFile in route.ts) -/

def SUPPORTED_FORMATS : List String :=
  ["image/jpeg", "image/png", "image/gif", "image/webp"]

def MAX_FILE_SIZE : Nat := 5 * 1024 * 1024

/-- Embedding of `validateFile`: `some reason` models returning an error
string, `none` models returning `null` (the file is accepted). -/
def validateFile (fileType : String) (fileSize : Nat) : Option String :=
  if ¬ (SUPPORTED_FORMATS.contains fileType) then
    some "Unsupported file format. Please use JPEG, PNG, GIF, or WebP."
  else if fileSize > MAX_FILE_SIZE then
    some "File size exceeds 5MB limit."
  else
    none

/-! ## JSON values

`Json.num` stores the numeric literal exactly as it appeared in the input. -/

inductive Json where
  | null
  | bool (b : Bool)
  | num (lit : String)
  | str (s : String)
  | arr (elems : List Json)
  | obj (mems : List (String × Json))

/-! ## JSON parser (model of JSON.parse) -/

/-- JSON insignificant whitespace (space, tab, line feed, carriage return). -/
def isJsonWs (c : Char) : Bool :=
  c.toNat = 0x20 || c.toNat = 0x09 || c.toNat = 0x0A || c.toNat = 0x0D

def skipJsonWs (l : List Char) : List Char := l.dropWhile isJsonWs

/-- Value of a hexadecimal digit character. -/
def hexVal (c : Char) : Option Nat :=
  if '0' ≤ c ∧ c ≤ '9' then some (c.toNat - '0'.toNat)
  else if 'a' ≤ c ∧ c ≤ 'f' then some (c.toNat - 'a'.toNat + 10)
  else if 'A' ≤ c ∧ c ≤ 'F' then some (c.toNat - 'A'.toNat + 10)
  else none

mutual

/-- Parse the body of a JSON string (the opening quote already consumed),
returning the decoded characters and the input after the closing quote.
The fuel arguments only bound recursion depth; callers pass one more than
the length of the input, which every run stays strictly below. -/
def parseStringBody : Nat → List Char → Option (List Char × List Char)
  | 0, _ => none
  | Nat.succ fuel, l =>
    match l with
    | [] => none
    | c :: r =>
      if c = '"' then some ([], r)
      else if c = '\\' then parseEscape fuel r
      else if c.toNat < 0x20 then none
      else (parseStringBody fuel r).map (fun p => (c :: p.1, p.2))

/-- Decode one escape sequence after a backslash. -/
def parseEscape : Nat → List Char → Option (List Char × List Char)
  | 0, _ => none
  | Nat.succ fuel, l =>
    match l with
    | [] => none
    | e :: r1 =>
      if e = '"' then (parseStringBody fuel r1).map (fun p => ('"' :: p.1, p.2))
      else if e = '\\' then (parseStringBody fuel r1).map (fun p => ('\\' :: p.1, p.2))
      else if e = '/' then (parseStringBody fuel r1).map (fun p => ('/' :: p.1, p.2))
      else if e = 'b' then (parseStringBody fuel r1).map (fun p => ('\x08' :: p.1, p.2))
      else if e = 'f' then (parseStringBody fuel r1).map (fun p => ('\x0c' :: p.1, p.2))
      else if e = 'n' then (parseStringBody fuel r1).map (fun p => ('\n' :: p.1, p.2))
      else if e = 'r' then (parseStringBody fuel r1).map (fun p => ('\r' :: p.1, p.2))
      else if e = 't' then (parseStringBody fuel r1).map (fun p => ('\t' :: p.1, p.2))
      else if e = 'u' then
        match r1 with
        | h1 :: h2 :: h3 :: h4 :: r2 =>
          match hexVal h1, hexVal h2, hexVal h3, hexVal h4 with
          | some a, some b, some c2, some d =>
            let code := a * 4096 + b * 256 + c2 * 16 + d
            if 0xD800 ≤ code ∧ code ≤ 0xDBFF then
              parseHighSurrogate fuel code r2
            else if 0xDC00 ≤ code ∧ code ≤ 0xDFFF then
              (parseStringBody fuel r2).map (fun p => (Char.ofNat 0xFFFD :: p.1, p.2))
            else
              (parseStringBody fuel r2).map (fun p => (Char.ofNat code :: p.1, p.2))
          | _, _, _, _ => none
        | _ => none
      else none

/-- After a high-surrogate escape: pair it with a following low-surrogate
escape if present; otherwise emit U+FFFD for the lone surrogate (which Lean
strings cannot represent) and continue. -/
def parseHighSurrogate : Nat → Nat → List Char → Option (List Char × List Char)
  | 0, _, _ => none
  | Nat.succ fuel, code, l =>
    match l with
    | e2 :: u2 :: g1 :: g2 :: g3 :: g4 :: r3 =>
      if e2 = '\\' ∧ u2 = 'u' then
        match hexVal g1, hexVal g2, hexVal g3, hexVal g4 with
        | some a2, some b2, some c3, some d2 =>
          let low := a2 * 4096 + b2 * 256 + c3 * 16 + d2
          if 0xDC00 ≤ low ∧ low ≤ 0xDFFF then
            (parseStringBody fuel r3).map
              (fun p =>
                (Char.ofNat (0x10000 + (code - 0xD800) * 0x400 + (low - 0xDC00)) :: p.1,
                  p.2))
          else
            (parseStringBody fuel l).map (fun p => (Char.ofNat 0xFFFD :: p.1, p.2))
        | _, _, _, _ =>
          (parseStringBody fuel l).map (fun p => (Char.ofNat 0xFFFD :: p.1, p.2))
      else (parseStringBody fuel l).map (fun p => (Char.ofNat 0xFFFD :: p.1, p.2))
    | _ => (parseStringBody fuel l).map (fun p => (Char.ofNat 0xFFFD :: p.1, p.2))

end

/-- Split off a maximal run of decimal digits. -/
def lexDigits (l : List Char) : List Char × List Char :=
  (l.takeWhile isDigitChar, l.dropWhile isDigitChar)

/-- Parse the optional fraction part of a JSON number. -/
def parseFrac (l : List Char) : Option (List Char × List Char) :=
  if l.head? = some '.' then
    if (lexDigits l.tail).1 = [] then none
    else some ('.' :: (lexDigits l.tail).1, (lexDigits l.tail).2)
  else some ([], l)

/-- Parse the optional exponent part of a JSON number. -/
def parseExp (l : List Char) : Option (List Char × List Char) :=
  match l.head? with
  | some c =>
    if c = 'e' ∨ c = 'E' then
      let sg : List Char :=
        if l.tail.head? = some '+' then ['+']
        else if l.tail.head? = some '-' then ['-'] else []
      let body : List Char :=
        if l.tail.head? = some '+' ∨ l.tail.head? = some '-' then l.tail.tail
        else l.tail
      if (lexDigits body).1 = [] then none
      else some (c :: sg ++ (lexDigits body).1, (lexDigits body).2)
    else some ([], l)
  | none => some ([], l)

/-- Parse the optional fraction and exponent parts of a JSON number,
returning the consumed characters and the rest. -/
def parseFracExp (l : List Char) : Option (List Char × List Char) :=
  match parseFrac l with
  | none => none
  | some (fr, l2) =>
    match parseExp l2 with
    | none => none
    | some (ex, r) => some (fr ++ ex, r)

/-- Lex a JSON number literal, returning the literal characters and the rest.
Follows the JSON grammar: optional minus sign, integer part with no leading
zeros, optional fraction, optional exponent. -/
def parseNumber (l : List Char) : Option (List Char × List Char) :=
  let sgn : List Char := if l.head? = some '-' then ['-'] else []
  let l1 : List Char := if l.head? = some '-' then l.tail else l
  match l1.head? with
  | none => none
  | some c =>
    if c = '0' then
      match parseFracExp l1.tail with
      | some (fe, rest) => some (sgn ++ '0' :: fe, rest)
      | none => none
    else if isDigitChar c then
      match parseFracExp (lexDigits l1).2 with
      | some (fe, rest) => some (sgn ++ (lexDigits l1).1 ++ fe, rest)
      | none => none
    else none


/-! ## Shape predicates for number literals, used by the replay lemmas -/

/-- What may follow a complete number literal without extending it. -/
def NumBoundary (rest : List Char) : Prop :=
  ∀ c, rest.head? = some c →
    isDigitChar c = false ∧ c ≠ '.' ∧ c ≠ 'e' ∧ c ≠ 'E'

/-- Shape of a fraction part produced by `parseFrac`. -/
def FracShape (fr : List Char) : Prop :=
  fr = [] ∨ ∃ ds, fr = '.' :: ds ∧ ds ≠ [] ∧ ∀ c ∈ ds, isDigitChar c = true

/-- Shape of an exponent part produced by `parseExp`. -/
def ExpShape (ex : List Char) : Prop :=
  ex = [] ∨ ∃ c sg ds, ex = c :: sg ++ ds ∧ (c = 'e' ∨ c = 'E') ∧
    (sg = [] ∨ sg = ['+'] ∨ sg = ['-']) ∧ ds ≠ [] ∧ ∀ c2 ∈ ds, isDigitChar c2 = true

/-- Shape of an integer part produced by `parseNumber`. -/
def IntShape (ip : List Char) : Prop :=
  ip = ['0'] ∨ ∃ d ds, ip = d :: ds ∧ isDigitChar d = true ∧ d ≠ '0' ∧
    ∀ c ∈ ds, isDigitChar c = true

/-- Shape of a complete literal produced by `parseNumber`. -/
def NumShape (lit : List Char) : Prop :=
  ∃ sgn ip fr ex, lit = sgn ++ ip ++ fr ++ ex ∧ (sgn = [] ∨ sgn = ['-']) ∧
    IntShape ip ∧ FracShape fr ∧ ExpShape ex

mutual

/-- Fuel-indexed JSON value parser; the fuel only bounds recursion depth and
is chosen large enough at the top level (see `jsonParse`). -/
def parseValue : Nat → List Char → Option (Json × List Char)
  | 0, _ => none
  | Nat.succ fuel, l =>
    match skipJsonWs l with
    | 'n' :: 'u' :: 'l' :: 'l' :: r => some (.null, r)
    | 't' :: 'r' :: 'u' :: 'e' :: r => some (.bool true, r)
    | 'f' :: 'a' :: 'l' :: 's' :: 'e' :: r => some (.bool false, r)
    | '"' :: r =>
      match parseStringBody (r.length + 1) r with
      | some (cs, r1) => some (.str ⟨cs⟩, r1)
      | none => none
    | '[' :: r =>
      match skipJsonWs r with
      | ']' :: r1 => some (.arr [], r1)
      | r1 =>
        match parseElems fuel r1 with
        | some (es, r2) => some (.arr es, r2)
        | none => none
    | '{' :: r =>
      match skipJsonWs r with
      | '}' :: r1 => some (.obj [], r1)
      | r1 =>
        match parseMembers fuel r1 with
        | some (ms, r2) => some (.obj ms, r2)
        | none => none
    | other =>
      match parseNumber other with
      | some (lit, r1) => some (.num ⟨lit⟩, r1)
      | none => none

/-- Parse one or more comma-separated array elements up to the closing
bracket. -/
def parseElems : Nat → List Char → Option (List Json × List Char)
  | 0, _ => none
  | Nat.succ fuel, l =>
    match parseValue fuel l with
    | none => none
    | some (j, r) =>
      match skipJsonWs r with
      | ',' :: r1 =>
        match parseElems fuel r1 with
        | some (es, r2) => some (j :: es, r2)
        | none => none
      | ']' :: r1 => some ([j], r1)
      | _ => none

/-- Parse one or more comma-separated object members up to the closing
brace. -/
def parseMembers : Nat → List Char → Option (List (String × Json) × List Char)
  | 0, _ => none
  | Nat.succ fuel, l =>
    match skipJsonWs l with
    | '"' :: r =>
      match parseStringBody (r.length + 1) r with
      | none => none
      | some (k, r1) =>
        match skipJsonWs r1 with
        | ':' :: r2 =>
          match parseValue fuel r2 with
          | none => none
          | some (v, r3) =>
            match skipJsonWs r3 with
            | ',' :: r4 =>
              match parseMembers fuel r4 with
              | some (ms, r5) => some ((⟨k⟩, v) :: ms, r5)
              | none => none
            | '}' :: r4 => some ([(⟨k⟩, v)], r4)
            | _ => none
        | _ => none
    | _ => none

end

/-- Model of `JSON.parse`: `none` models a thrown `SyntaxError`. The fuel
`2 * length + 2` strictly dominates the recursion depth of any parse of the
input. -/
def jsonParse (s : String) : Option Json :=
  match parseValue (2 * s.data.length + 2) s.data with
  | some (j, rest) => if skipJsonWs rest = [] then some j else none
  | none => none

/-! ## Response normalizer (parseOpenRouterResponse in route.ts) -/

/-- Last-wins lookup of an object member, matching JavaScript duplicate-key
semantics of JSON.parse. -/
def lookupMem (mems : List (String × Json)) (k : String) : Option Json :=
  (mems.reverse.find? (fun m => m.1 == k)).map (fun m => m.2)

/-- Property access on a parsed value that is not null: `none` models the
JavaScript `undefined` (access on a non-object, or a missing key). -/
def getMem (j : Json) (k : String) : Option Json :=
  match j with
  | .obj mems => lookupMem mems k
  | _ => none

/-- Whether a numeric literal denotes zero (all mantissa digits are 0). -/
def isZeroLit (lit : String) : Bool :=
  (lit.data.takeWhile (fun c => !(c == 'e' || c == 'E'))).all
    (fun c => !(isDigitChar c) || c == '0')

/-- JavaScript truthiness of a JSON value. -/
def truthy : Json → Bool
  | .null => false
  | .bool b => b
  | .num lit => ! isZeroLit lit
  | .str s => ! s.isEmpty
  | .arr _ => true
  | .obj _ => true

/-- The record type of the normalizer result (AnalysisResponse in route.ts).
Fields hold arbitrary JSON values because the code copies whatever the parsed
record contains without validating shapes. -/
structure AnalysisResponse where
  uxInsights : Json
  visualDesign : Json
  bestPractices : Json
  annotations : Json

/-- The expression `v || []` applied to a possibly-undefined field value. -/
def jsOrArr (v : Option Json) : Json :=
  match v with
  | some x => if truthy x then x else Json.arr []
  | none => Json.arr []

/-- The try-block of parseOpenRouterResponse: JSON.parse followed by the four
property accesses. `none` models a thrown exception (SyntaxError from
JSON.parse, or TypeError from property access on null) which transfers
control to the catch block. -/
def structuredAttempt (s : String) : Option AnalysisResponse :=
  match jsonParse s with
  | none => none
  | some Json.null => none
  | some j =>
    some {
      uxInsights := jsOrArr (getMem j "uxInsights"),
      visualDesign := jsOrArr (getMem j "visualDesign"),
      bestPractices := jsOrArr (getMem j "bestPractices"),
      annotations := jsOrArr (getMem j "annotations") }

/-- The three values the currentSection variable ranges over. -/
inductive Sect where
  | uxInsights
  | visualDesign
  | bestPractices
deriving DecidableEq

/-- State of the fallback line scan: the section pointer and the three string
arrays being built (the annotations array of the response is initialized
empty and never touched by the scan). -/
structure ScanState where
  currentSection : Sect
  uxInsights : List String
  visualDesign : List String
  bestPractices : List String
deriving DecidableEq

def lowerLine (line : List Char) : List Char := line.map Char.toLower

def hasUxKw (line : List Char) : Bool :=
  containsSub "ux".data (lowerLine line) ||
  containsSub "usability".data (lowerLine line)

def hasVisualKw (line : List Char) : Bool :=
  containsSub "visual".data (lowerLine line) ||
  containsSub "design".data (lowerLine line)

def hasBestKw (line : List Char) : Bool :=
  containsSub "best".data (lowerLine line) ||
  containsSub "practice".data (lowerLine line)

/-- Test of the regular expression caret-digits-period against a string. -/
def leadingNumberDot (t : List Char) : Bool :=
  match t.takeWhile isDigitChar, t.dropWhile isDigitChar with
  | [], _ => false
  | _ :: _, '.' :: _ => true
  | _ :: _, _ => false

/-- The bullet-line test of the source: the trimmed line starts with a dash
or a bullet character, or matches the digits-period pattern. -/
def isBulletStart (line : List Char) : Bool :=
  (jsTrim line).head? == some '-' || (jsTrim line).head? == some '•' ||
  leadingNumberDot (jsTrim line)

/-- The character class bracket-dash-bullet-digit-period of the replace
regular expression. -/
def markerClass (c : Char) : Bool :=
  c == '-' || c == '•' || isDigitChar c || c == '.'

/-- The replace call: if the first character of the (untrimmed) line is in
the marker class, remove it and any whitespace immediately following it;
otherwise the line is unchanged (the regular expression is anchored). -/
def stripLeadMarker : List Char → List Char
  | [] => []
  | c :: r => if markerClass c then r.dropWhile jsWhitespaceChar else c :: r

/-- cleanLine of the source: strip one leading marker, then trim. -/
def cleanLine (line : List Char) : List Char := jsTrim (stripLeadMarker line)

/-- Append an item to the array the section pointer designates. -/
def pushItem (st : ScanState) (x : List Char) : ScanState :=
  match st.currentSection with
  | .uxInsights => { st with uxInsights := st.uxInsights ++ [⟨x⟩] }
  | .visualDesign => { st with visualDesign := st.visualDesign ++ [⟨x⟩] }
  | .bestPractices => { st with bestPractices := st.bestPractices ++ [⟨x⟩] }

/-- The body of the for-loop over lines. The Array.isArray guard of the
source is omitted because the three scanned fields are arrays by
construction, so the guard is always true on this state. -/
def processLine (st : ScanState) (line : List Char) : ScanState :=
  if hasUxKw line then { st with currentSection := Sect.uxInsights }
  else if hasVisualKw line then { st with currentSection := Sect.visualDesign }
  else if hasBestKw line then { st with currentSection := Sect.bestPractices }
  else if isBulletStart line then
    if (cleanLine line).isEmpty then st else pushItem st (cleanLine line)
  else st

def initScan : ScanState := ⟨Sect.uxInsights, [], [], []⟩

/-- Split into lines, drop blank lines, and run the scan loop. -/
def scanLines (s : String) : ScanState :=
  ((splitNl s.data).filter (fun l => ! (jsTrim l).isEmpty)).foldl processLine initScan

/-- The catch-block of parseOpenRouterResponse: the line scan followed by the
degenerate fallback when nothing was collected. -/
def fallbackParse (s : String) : AnalysisResponse :=
  if (scanLines s).uxInsights.isEmpty && (scanLines s).visualDesign.isEmpty &&
      (scanLines s).bestPractices.isEmpty then
    ⟨Json.arr [Json.str s], Json.arr [], Json.arr [], Json.arr []⟩
  else
    ⟨Json.arr ((scanLines s).uxInsights.map Json.str),
     Json.arr ((scanLines s).visualDesign.map Json.str),
     Json.arr ((scanLines s).bestPractices.map Json.str), Json.arr []⟩

/-- Embedding of parseOpenRouterResponse. -/
def parseOpenRouterResponse (s : String) : AnalysisResponse :=
  match structuredAttempt s with
  | some r => r
  | none => fallbackParse s

/-! ## JSON serializer (model of JSON.stringify on parsed values) -/

def hexDigitChar (n : Nat) : Char :=
  if n < 10 then Char.ofNat ('0'.toNat + n) else Char.ofNat ('a'.toNat + (n - 10))

/-- Escaping of one character inside a JSON string, as JSON.stringify does:
quote, backslash and the five short escapes, a backslash-u escape for other
control characters, everything else verbatim. -/
def escapeChar (c : Char) : List Char :=
  if c = '"' then ['\\', '"']
  else if c = '\\' then ['\\', '\\']
  else if c = '\x08' then ['\\', 'b']
  else if c = '\x0c' then ['\\', 'f']
  else if c = '\n' then ['\\', 'n']
  else if c = '\r' then ['\\', 'r']
  else if c = '\t' then ['\\', 't']
  else if c.toNat < 0x20 then
    '\\' :: 'u' :: '0' :: '0' :: [hexDigitChar (c.toNat / 16), hexDigitChar (c.toNat % 16)]
  else [c]

def escList : List Char → List Char
  | [] => []
  | c :: cs => escapeChar c ++ escList cs

mutual

/-- Serializer for JSON values (no added whitespace, keys in order). -/
def printJson : Json → List Char
  | .null => ['n', 'u', 'l', 'l']
  | .bool b => if b then ['t', 'r', 'u', 'e'] else ['f', 'a', 'l', 's', 'e']
  | .num lit => lit.data
  | .str s => '"' :: (escList s.data ++ ['"'])
  | .arr [] => ['[', ']']
  | .arr (e :: es) => '[' :: (printElemsP e es ++ [']'])
  | .obj [] => ['{', '}']
  | .obj (m :: ms) => '{' :: (printMembersP m ms ++ ['}'])
  termination_by j => sizeOf j

/-- Comma-separated serialization of a nonempty element list. -/
def printElemsP : Json → List Json → List Char
  | e, [] => printJson e
  | e, e2 :: es => printJson e ++ ',' :: printElemsP e2 es
  termination_by e es => sizeOf (e :: es)

/-- Comma-separated serialization of a nonempty member list. -/
def printMembersP : String × Json → List (String × Json) → List Char
  | (k, v), [] => '"' :: (escList k.data ++ '"' :: ':' :: printJson v)
  | (k, v), m2 :: ms =>
    ('"' :: (escList k.data ++ '"' :: ':' :: printJson v)) ++ ',' :: printMembersP m2 ms
  termination_by m ms => sizeOf (m :: ms)

end

/-- JSON.stringify of the analysis result: the four fields in insertion
order. -/
def stringifyResult (r : AnalysisResponse) : String :=
  ⟨printJson (Json.obj
    [("uxInsights", r.uxInsights), ("visualDesign", r.visualDesign),
     ("bestPractices", r.bestPractices), ("annotations", r.annotations)])⟩

/-! ## Auxiliary predicates used by the claims -/

/-- The unstructured sample input of the specification. -/
def sampleText : String :=
  "UX Insights\n- Good contrast\n- Confusing nav\nBest Practices\n1. Add alt text"

def isArrJson : Json → Bool
  | .arr _ => true
  | _ => false

mutual

/-- Well-formedness of a JSON value in this model: every numeric literal in
it is exactly a literal of the JSON number grammar. Values produced by the
parser are well formed, and well-formed values serialize and reparse
exactly. -/
def wfJson : Json → Bool
  | .null => true
  | .bool _ => true
  | .num lit => parseNumber lit.data == some (lit.data, [])
  | .str _ => true
  | .arr es => wfElems es
  | .obj ms => wfMems ms

def wfElems : List Json → Bool
  | [] => true
  | e :: es => wfJson e && wfElems es

def wfMems : List (String × Json) → Bool
  | [] => true
  | (_, v) :: ms => wfJson v && wfMems ms

end

mutual

/-- Recursion-depth measure used to discharge the parser fuel. -/
def weight : Json → Nat
  | .null => 1
  | .bool _ => 1
  | .num _ => 1
  | .str _ => 1
  | .arr es => 1 + weightElems es
  | .obj ms => 1 + weightMems ms

def weightElems : List Json → Nat
  | [] => 0
  | e :: es => 1 + weight e + weightElems es

def weightMems : List (String × Json) → Nat
  | [] => 0
  | (_, v) :: ms => 1 + weight v + weightMems ms

end

/-! ## Lemmas on lexical helpers -/

theorem takeWhile_all_append (p : Char → Bool) (ds rest : List Char)
    (hall : ∀ c ∈ ds, p c = true)
    (hrest : ∀ c, rest.head? = some c → p c = false) :
    (ds ++ rest).takeWhile p = ds := by
  induction ds with
  | nil =>
    cases rest with
    | nil => rfl
    | cons c t => simp [List.takeWhile_cons, hrest c rfl]
  | cons d ds ih =>
    simp [List.takeWhile_cons, hall d (by simp),
      ih (fun c hc => hall c (by simp [hc]))]

theorem dropWhile_all_append (p : Char → Bool) (ds rest : List Char)
    (hall : ∀ c ∈ ds, p c = true)
    (hrest : ∀ c, rest.head? = some c → p c = false) :
    (ds ++ rest).dropWhile p = rest := by
  induction ds with
  | nil =>
    cases rest with
    | nil => rfl
    | cons c t => simp [List.dropWhile_cons, hrest c rfl]
  | cons d ds ih =>
    simp [List.dropWhile_cons, hall d (by simp),
      ih (fun c hc => hall c (by simp [hc]))]

theorem head?_dropWhile_neg (p : Char → Bool) (l : List Char) :
    ∀ c, (l.dropWhile p).head? = some c → p c = false := by
  induction l with
  | nil => intro c h; cases h
  | cons a t ih =>
    intro c h
    by_cases hp : p a = true
    · simp only [List.dropWhile_cons, hp, if_true] at h
      exact ih c h
    · simp only [List.dropWhile_cons, hp, if_false, Bool.false_eq_true,
        List.head?_cons, Option.some.injEq] at h
      subst h
      simpa using hp

theorem lexDigits_replay (ds rest : List Char)
    (hall : ∀ c ∈ ds, isDigitChar c = true)
    (hrest : ∀ c, rest.head? = some c → isDigitChar c = false) :
    lexDigits (ds ++ rest) = (ds, rest) := by
  simp [lexDigits, takeWhile_all_append _ _ _ hall hrest,
    dropWhile_all_append _ _ _ hall hrest]

theorem lexDigits_decomp (l ds r : List Char) (h : lexDigits l = (ds, r)) :
    l = ds ++ r ∧ (∀ c ∈ ds, isDigitChar c = true) ∧
      (∀ c, r.head? = some c → isDigitChar c = false) := by
  simp only [lexDigits, Prod.mk.injEq] at h
  obtain ⟨h1, h2⟩ := h
  subst h1; subst h2
  refine ⟨(List.takeWhile_append_dropWhile _ _).symm, ?_, ?_⟩
  · intro c hc; exact List.mem_takeWhile_imp hc
  · exact head?_dropWhile_neg _ _

theorem numBoundary_nil : NumBoundary [] := by
  intro c h; cases h

theorem numBoundary_cons (c : Char) (t : List Char)
    (h1 : isDigitChar c = false) (h2 : c ≠ '.') (h3 : c ≠ 'e') (h4 : c ≠ 'E') :
    NumBoundary (c :: t) := by
  intro d hd
  simp only [List.head?_cons, Option.some.injEq] at hd
  subst hd
  exact ⟨h1, h2, h3, h4⟩

/-! ## Decomposition and replay lemmas for the number lexer -/

theorem parseFrac_decomp (l fr l2 : List Char) (h : parseFrac l = some (fr, l2)) :
    FracShape fr ∧ l = fr ++ l2 := by
  cases l with
  | nil =>
    simp only [parseFrac, List.head?_nil, reduceCtorEq, if_false,
      Option.some.injEq, Prod.mk.injEq] at h
    obtain ⟨rfl, rfl⟩ := h
    exact ⟨Or.inl rfl, rfl⟩
  | cons a t =>
    by_cases ha : a = '.'
    · subst ha
      simp only [parseFrac, List.head?_cons, List.tail_cons, if_true] at h
      by_cases hds : (lexDigits t).1 = []
      · simp [hds] at h
      · simp only [hds, if_false, Option.some.injEq, Prod.mk.injEq] at h
        obtain ⟨rfl, rfl⟩ := h
        obtain ⟨hd1, hd2, _⟩ := lexDigits_decomp t _ _ rfl
        refine ⟨Or.inr ⟨(lexDigits t).1, rfl, hds, hd2⟩, ?_⟩
        simp only [List.cons_append]
        exact congrArg (List.cons '.') hd1
    · have hcond : ((a :: t).head? = some '.') = False := by simp [ha]
      simp only [parseFrac, hcond, if_false, Option.some.injEq, Prod.mk.injEq] at h
      obtain ⟨rfl, rfl⟩ := h
      exact ⟨Or.inl rfl, rfl⟩

theorem parseFrac_replay (fr rest : List Char) (hs : FracShape fr)
    (hd : ∀ c, rest.head? = some c → isDigitChar c = false ∧ c ≠ '.') :
    parseFrac (fr ++ rest) = some (fr, rest) := by
  rcases hs with rfl | ⟨ds, rfl, hne, hdig⟩
  · simp only [List.nil_append]
    cases rest with
    | nil => rfl
    | cons c t => simp [parseFrac, (hd c rfl).2]
  · simp only [List.cons_append]
    have hlex : lexDigits (ds ++ rest) = (ds, rest) :=
      lexDigits_replay ds rest hdig (fun c hc => (hd c hc).1)
    simp [parseFrac, hlex, hne]

theorem parseExp_decomp (l ex l2 : List Char) (h : parseExp l = some (ex, l2)) :
    ExpShape ex ∧ l = ex ++ l2 := by
  cases l with
  | nil =>
    simp only [parseExp, List.head?_nil, Option.some.injEq, Prod.mk.injEq] at h
    obtain ⟨rfl, rfl⟩ := h
    exact ⟨Or.inl rfl, rfl⟩
  | cons c t =>
    by_cases hce : c = 'e' ∨ c = 'E'
    · simp only [parseExp, List.head?_cons, List.tail_cons, if_pos hce] at h
      by_cases hp : t.head? = some '+'
      · obtain ⟨t2, rfl⟩ : ∃ t2, t = '+' :: t2 := by
          cases t with
          | nil => cases hp
          | cons x y =>
            simp only [List.head?_cons, Option.some.injEq] at hp
            subst hp; exact ⟨y, rfl⟩
        simp only [List.head?_cons, List.tail_cons] at h
        by_cases hds : (lexDigits t2).1 = []
        · simp [hds] at h
        · simp only [hds, if_false, Option.some.injEq, Prod.mk.injEq, reduceIte,
            Option.some.injEq, or_true, true_or, if_true] at h
          obtain ⟨rfl, rfl⟩ := h
          obtain ⟨hd1, hd2, _⟩ := lexDigits_decomp t2 _ _ rfl
          refine ⟨Or.inr ⟨c, ['+'], (lexDigits t2).1, rfl, hce,
            Or.inr (Or.inl rfl), hds, hd2⟩, ?_⟩
          simp only [List.cons_append, List.singleton_append, List.append_assoc]
          exact congrArg (List.cons c) (congrArg (List.cons '+') hd1)
      · by_cases hm : t.head? = some '-'
        · obtain ⟨t2, rfl⟩ : ∃ t2, t = '-' :: t2 := by
            cases t with
            | nil => cases hm
            | cons x y =>
              simp only [List.head?_cons, Option.some.injEq] at hm
              subst hm; exact ⟨y, rfl⟩
          simp only [List.head?_cons, List.tail_cons] at h
          by_cases hds : (lexDigits t2).1 = []
          · simp [hds] at h
          · simp only [hds, if_false, reduceIte, Option.some.injEq, Prod.mk.injEq,
              or_true, true_or, if_true] at h
            obtain ⟨rfl, rfl⟩ := h
            obtain ⟨hd1, hd2, _⟩ := lexDigits_decomp t2 _ _ rfl
            refine ⟨Or.inr ⟨c, ['-'], (lexDigits t2).1, rfl, hce,
              Or.inr (Or.inr rfl), hds, hd2⟩, ?_⟩
            simp only [List.cons_append, List.singleton_append, List.append_assoc]
            exact congrArg (List.cons c) (congrArg (List.cons '-') hd1)
        · simp only [hp, hm, if_false, or_self] at h
          by_cases hds : (lexDigits t).1 = []
          · simp [hds] at h
          · simp only [hds, if_false, Option.some.injEq, Prod.mk.injEq] at h
            obtain ⟨rfl, rfl⟩ := h
            obtain ⟨hd1, hd2, _⟩ := lexDigits_decomp t _ _ rfl
            refine ⟨Or.inr ⟨c, [], (lexDigits t).1, by simp, hce,
              Or.inl rfl, hds, hd2⟩, ?_⟩
            simp only [List.cons_append, List.nil_append]
            exact congrArg (List.cons c) hd1
    · simp only [parseExp, List.head?_cons, if_neg hce, Option.some.injEq,
        Prod.mk.injEq] at h
      obtain ⟨rfl, rfl⟩ := h
      exact ⟨Or.inl rfl, rfl⟩

theorem parseExp_replay (ex rest : List Char) (hs : ExpShape ex)
    (hb : ∀ c, rest.head? = some c → isDigitChar c = false ∧ c ≠ 'e' ∧ c ≠ 'E') :
    parseExp (ex ++ rest) = some (ex, rest) := by
  rcases hs with rfl | ⟨c, sg, ds, rfl, hce, hsg, hne, hdig⟩
  · simp only [List.nil_append]
    cases rest with
    | nil => rfl
    | cons c t =>
      obtain ⟨_, h2, h3⟩ := hb c rfl
      simp [parseExp, h2, h3]
  · have hrestd : ∀ c2, rest.head? = some c2 → isDigitChar c2 = false :=
      fun c2 hc2 => (hb c2 hc2).1
    have hlex : lexDigits (ds ++ rest) = (ds, rest) :=
      lexDigits_replay ds rest hdig hrestd
    rcases hsg with rfl | rfl | rfl
    · obtain ⟨d, ds2, rfl⟩ : ∃ d ds2, ds = d :: ds2 := by
        cases ds with
        | nil => exact absurd rfl hne
        | cons d ds2 => exact ⟨d, ds2, rfl⟩
      have hd := hdig d (by simp)
      have hdp : d ≠ '+' := by intro hEq; subst hEq; simp [isDigitChar] at hd
      have hdm : d ≠ '-' := by intro hEq; subst hEq; simp [isDigitChar] at hd
      have hlex2 : lexDigits (d :: (ds2 ++ rest)) = (d :: ds2, rest) := by
        simpa using hlex
      simp [parseExp, hce, hdp, hdm, hlex2]
    · have hlex2 : lexDigits (ds ++ rest) = (ds, rest) := hlex
      simp [parseExp, hce, hlex2, hne]
    · have hlex2 : lexDigits (ds ++ rest) = (ds, rest) := hlex
      simp [parseExp, hce, hlex2, hne]

theorem parseFracExp_decomp (l fe r : List Char) (h : parseFracExp l = some (fe, r)) :
    ∃ fr ex, fe = fr ++ ex ∧ FracShape fr ∧ ExpShape ex ∧ l = fe ++ r := by
  unfold parseFracExp at h
  rcases hpf : parseFrac l with _ | ⟨fr, l2⟩
  · simp only [hpf] at h
    exact Option.noConfusion h
  · simp only [hpf] at h
    rcases hpe : parseExp l2 with _ | ⟨ex, r2⟩
    · simp only [hpe] at h
      exact Option.noConfusion h
    · simp only [hpe, Option.some.injEq, Prod.mk.injEq] at h
      obtain ⟨rfl, rfl⟩ := h
      obtain ⟨hf, hl⟩ := parseFrac_decomp l fr l2 hpf
      obtain ⟨he, hl2⟩ := parseExp_decomp l2 ex _ hpe
      exact ⟨fr, ex, rfl, hf, he, by rw [hl, hl2]; simp⟩

theorem parseFracExp_replay (fr ex rest : List Char) (hf : FracShape fr)
    (he : ExpShape ex) (hb : NumBoundary rest) :
    parseFracExp (fr ++ ex ++ rest) = some (fr ++ ex, rest) := by
  have hfrep : parseFrac (fr ++ (ex ++ rest)) = some (fr, ex ++ rest) := by
    apply parseFrac_replay fr (ex ++ rest) hf
    intro c hc
    rcases he with rfl | ⟨c0, sg, ds, rfl, hce, _, _, _⟩
    · simp only [List.nil_append] at hc
      obtain ⟨h1, h2, _, _⟩ := hb c hc
      exact ⟨h1, h2⟩
    · simp only [List.cons_append, List.head?_cons, Option.some.injEq] at hc
      subst hc
      rcases hce with rfl | rfl
      · exact ⟨by decide, by decide⟩
      · exact ⟨by decide, by decide⟩
  have hxrep : parseExp (ex ++ rest) = some (ex, rest) := by
    apply parseExp_replay ex rest he
    intro c hc
    obtain ⟨h1, _, h3, h4⟩ := hb c hc
    exact ⟨h1, h3, h4⟩
  simp only [parseFracExp, List.append_assoc, hfrep, hxrep]

/-! ## Decomposition and replay for complete number literals -/

theorem parseNumber_decomp (l lit r : List Char) (h : parseNumber l = some (lit, r)) :
    NumShape lit ∧ l = lit ++ r := by
  by_cases hm : l.head? = some '-'
  · obtain ⟨t, rfl⟩ : ∃ t, l = '-' :: t := by
      cases l with
      | nil => cases hm
      | cons a t =>
        simp only [List.head?_cons, Option.some.injEq] at hm
        subst hm; exact ⟨t, rfl⟩
    simp only [parseNumber, List.head?_cons, List.tail_cons, reduceIte] at h
    cases t with
    | nil => exact Option.noConfusion h
    | cons c t2 =>
      simp only [List.head?_cons] at h
      by_cases hc0 : c = '0'
      · subst hc0
        rw [if_pos rfl] at h
        rcases hfe : parseFracExp t2 with _ | ⟨fe, rest⟩
        · simp only [List.tail_cons, hfe] at h
          exact Option.noConfusion h
        · simp only [List.tail_cons, hfe, Option.some.injEq, Prod.mk.injEq] at h
          obtain ⟨rfl, rfl⟩ := h
          obtain ⟨fr, ex, rfl, hf, he, ht2⟩ := parseFracExp_decomp t2 _ _ hfe
          refine ⟨⟨['-'], ['0'], fr, ex, by simp, Or.inr rfl, Or.inl rfl, hf, he⟩, ?_⟩
          have ht2b : t2 = fr ++ (ex ++ rest) := by simpa [List.append_assoc] using ht2
          simp only [List.cons_append, List.singleton_append, List.append_assoc,
            List.nil_append]
          exact congrArg (List.cons '-') (congrArg (List.cons '0') ht2b)
      · rw [if_neg hc0] at h
        by_cases hcd : isDigitChar c = true
        · rw [if_pos hcd] at h
          have hlexc : lexDigits (c :: t2) = (c :: (lexDigits t2).1, (lexDigits t2).2) := by
            simp [lexDigits, List.takeWhile_cons, List.dropWhile_cons, hcd]
          simp only [hlexc] at h
          rcases hfe : parseFracExp (lexDigits t2).2 with _ | ⟨fe, rest⟩
          · simp only [hfe] at h
            exact Option.noConfusion h
          · simp only [hfe, Option.some.injEq, Prod.mk.injEq] at h
            obtain ⟨rfl, rfl⟩ := h
            obtain ⟨fr, ex, rfl, hf, he, hdk⟩ := parseFracExp_decomp _ _ _ hfe
            obtain ⟨ht2, hdig, _⟩ := lexDigits_decomp t2 (lexDigits t2).1 (lexDigits t2).2 rfl
            refine ⟨⟨['-'], c :: (lexDigits t2).1, fr, ex, by simp, Or.inr rfl,
              Or.inr ⟨c, (lexDigits t2).1, rfl, hcd, hc0, hdig⟩, hf, he⟩, ?_⟩
            rw [hdk] at ht2
            have ht2b : t2 = (lexDigits t2).1 ++ (fr ++ (ex ++ rest)) := by
              simpa [List.append_assoc] using ht2
            simp only [List.cons_append, List.singleton_append, List.append_assoc,
              List.nil_append]
            exact congrArg (List.cons '-') (congrArg (List.cons c) ht2b)
        · rw [if_neg hcd] at h
          exact Option.noConfusion h
  · have hsgn : (if l.head? = some '-' then (['-'] : List Char) else []) = [] := if_neg hm
    have hl1 : (if l.head? = some '-' then l.tail else l) = l := if_neg hm
    simp only [parseNumber, hsgn, hl1, List.nil_append] at h
    cases l with
    | nil => exact Option.noConfusion h
    | cons c t2 =>
      simp only [List.head?_cons] at h
      by_cases hc0 : c = '0'
      · subst hc0
        rw [if_pos rfl] at h
        rcases hfe : parseFracExp t2 with _ | ⟨fe, rest⟩
        · simp only [List.tail_cons, hfe] at h
          exact Option.noConfusion h
        · simp only [List.tail_cons, hfe, Option.some.injEq, Prod.mk.injEq] at h
          obtain ⟨rfl, rfl⟩ := h
          obtain ⟨fr, ex, rfl, hf, he, ht2⟩ := parseFracExp_decomp t2 _ _ hfe
          refine ⟨⟨[], ['0'], fr, ex, by simp, Or.inl rfl, Or.inl rfl, hf, he⟩, ?_⟩
          have ht2b : t2 = fr ++ (ex ++ rest) := by simpa [List.append_assoc] using ht2
          simp only [List.cons_append, List.singleton_append, List.append_assoc,
            List.nil_append]
          exact congrArg (List.cons '0') ht2b
      · rw [if_neg hc0] at h
        by_cases hcd : isDigitChar c = true
        · rw [if_pos hcd] at h
          have hlexc : lexDigits (c :: t2) = (c :: (lexDigits t2).1, (lexDigits t2).2) := by
            simp [lexDigits, List.takeWhile_cons, List.dropWhile_cons, hcd]
          simp only [hlexc] at h
          rcases hfe : parseFracExp (lexDigits t2).2 with _ | ⟨fe, rest⟩
          · simp only [hfe] at h
            exact Option.noConfusion h
          · simp only [hfe, Option.some.injEq, Prod.mk.injEq] at h
            obtain ⟨rfl, rfl⟩ := h
            obtain ⟨fr, ex, rfl, hf, he, hdk⟩ := parseFracExp_decomp _ _ _ hfe
            obtain ⟨ht2, hdig, _⟩ := lexDigits_decomp t2 (lexDigits t2).1 (lexDigits t2).2 rfl
            refine ⟨⟨[], c :: (lexDigits t2).1, fr, ex, by simp, Or.inl rfl,
              Or.inr ⟨c, (lexDigits t2).1, rfl, hcd, hc0, hdig⟩, hf, he⟩, ?_⟩
            rw [hdk] at ht2
            have ht2b : t2 = (lexDigits t2).1 ++ (fr ++ (ex ++ rest)) := by
              simpa [List.append_assoc] using ht2
            simp only [List.cons_append, List.singleton_append, List.append_assoc,
              List.nil_append]
            exact congrArg (List.cons c) ht2b
        · rw [if_neg hcd] at h
          exact Option.noConfusion h

theorem numShape_head (lit : List Char) (hs : NumShape lit) :
    ∃ c t, lit = c :: t ∧ (c = '-' ∨ isDigitChar c = true) := by
  obtain ⟨sgn, ip, fr, ex, rfl, hsgn, hip, _, _⟩ := hs
  rcases hsgn with rfl | rfl
  · rcases hip with rfl | ⟨d, ds, rfl, hdd, _, _⟩
    · exact ⟨'0', fr ++ ex, by simp, Or.inr (by decide)⟩
    · exact ⟨d, ds ++ (fr ++ ex), by simp, Or.inr hdd⟩
  · exact ⟨'-', ip ++ fr ++ ex, by simp, Or.inl rfl⟩

theorem parseNumber_replay (lit rest : List Char) (hs : NumShape lit)
    (hb : NumBoundary rest) :
    parseNumber (lit ++ rest) = some (lit, rest) := by
  obtain ⟨sgn, ip, fr, ex, rfl, hsgn, hip, hf, he⟩ := hs
  have hbfe : ∀ c, (fr ++ (ex ++ rest)).head? = some c → isDigitChar c = false := by
    intro c hc
    rcases hf with rfl | ⟨ds, rfl, _, _⟩
    · simp only [List.nil_append] at hc
      rcases he with rfl | ⟨c0, sg, ds, rfl, hce, _, _, _⟩
      · exact (hb c hc).1
      · simp only [List.cons_append, List.head?_cons, Option.some.injEq] at hc
        subst hc
        rcases hce with rfl | rfl
        · decide
        · decide
    · simp only [List.cons_append, List.head?_cons, Option.some.injEq] at hc
      subst hc
      decide
  have hfex : parseFracExp (fr ++ (ex ++ rest)) = some (fr ++ ex, rest) := by
    simpa [List.append_assoc] using parseFracExp_replay fr ex rest hf he hb
  rcases hsgn with rfl | rfl
  · rcases hip with rfl | ⟨d, ds, rfl, hdd, hd0, hdig⟩
    · simp only [List.nil_append, List.singleton_append, List.cons_append,
        List.append_assoc]
      simp [parseNumber, hfex]
    · have hdm : d ≠ '-' := by
        intro hEq; subst hEq; simp [isDigitChar] at hdd
      have hall : ∀ c ∈ d :: ds, isDigitChar c = true := by
        intro c hc
        rcases List.mem_cons.mp hc with rfl | hc2
        · exact hdd
        · exact hdig c hc2
      have hlex : lexDigits (d :: (ds ++ (fr ++ (ex ++ rest)))) =
          (d :: ds, fr ++ (ex ++ rest)) := by
        have := lexDigits_replay (d :: ds) (fr ++ (ex ++ rest)) hall hbfe
        simpa [List.append_assoc] using this
      simp only [List.nil_append, List.cons_append, List.append_assoc]
      simp [parseNumber, hdm, hd0, hdd, hlex, hfex]
  · rcases hip with rfl | ⟨d, ds, rfl, hdd, hd0, hdig⟩
    · simp only [List.singleton_append, List.cons_append, List.append_assoc]
      simp [parseNumber, hfex]
    · have hall : ∀ c ∈ d :: ds, isDigitChar c = true := by
        intro c hc
        rcases List.mem_cons.mp hc with rfl | hc2
        · exact hdd
        · exact hdig c hc2
      have hlex : lexDigits (d :: (ds ++ (fr ++ (ex ++ rest)))) =
          (d :: ds, fr ++ (ex ++ rest)) := by
        have := lexDigits_replay (d :: ds) (fr ++ (ex ++ rest)) hall hbfe
        simpa [List.append_assoc] using this
      simp only [List.singleton_append, List.cons_append, List.append_assoc]
      simp [parseNumber, hd0, hdd, hlex, hfex]

theorem parseNumber_self (l lit r : List Char) (h : parseNumber l = some (lit, r)) :
    parseNumber lit = some (lit, []) := by
  obtain ⟨hs, _⟩ := parseNumber_decomp l lit r h
  simpa using parseNumber_replay lit [] hs numBoundary_nil

/-! ## Round trip for serialized strings -/

theorem hexVal_hexDigitChar : ∀ n, n < 16 → hexVal (hexDigitChar n) = some n := by
  intro n h
  interval_cases n <;> decide

theorem parseStringBody_escape (cs : List Char) : ∀ (fuel : Nat) (rest : List Char),
    (escList cs ++ '"' :: rest).length < fuel →
    parseStringBody fuel (escList cs ++ '"' :: rest) = some (cs, rest) := by
  induction cs with
  | nil =>
    intro fuel rest hf
    cases fuel with
    | zero => simp at hf
    | succ F => simp [escList, parseStringBody]
  | cons c cs ih =>
    intro fuel rest hf
    cases fuel with
    | zero => simp at hf
    | succ F =>
      by_cases h1 : c = '"'
      · subst h1
        cases F with
        | zero => simp [escList, escapeChar, List.length_append] at hf
        | succ F2 =>
          have hlen : (escList cs ++ '"' :: rest).length < F2 := by
            simp only [escList, escapeChar, List.length_append, List.length_cons] at hf
            simp only [List.length_append, List.length_cons]
            simp at hf
            omega
          simp [escList, escapeChar, List.cons_append, parseStringBody, parseEscape,
            ih F2 rest hlen]
      · by_cases h2 : c = '\\'
        · subst h2
          cases F with
          | zero => simp [escList, escapeChar, List.length_append] at hf
          | succ F2 =>
            have hlen : (escList cs ++ '"' :: rest).length < F2 := by
              simp only [escList, escapeChar, List.length_append, List.length_cons] at hf
              simp only [List.length_append, List.length_cons]
              simp at hf
              omega
            simp [escList, escapeChar, List.cons_append, parseStringBody, parseEscape,
              ih F2 rest hlen]
        · by_cases h3 : c = '\x08'
          · subst h3
            cases F with
            | zero => simp [escList, escapeChar, List.length_append] at hf
            | succ F2 =>
              have hlen : (escList cs ++ '"' :: rest).length < F2 := by
                simp only [escList, escapeChar, List.length_append, List.length_cons] at hf
                simp only [List.length_append, List.length_cons]
                simp at hf
                omega
              simp [escList, escapeChar, List.cons_append, parseStringBody, parseEscape,
                ih F2 rest hlen]
          · by_cases h4 : c = '\x0c'
            · subst h4
              cases F with
              | zero => simp [escList, escapeChar, List.length_append] at hf
              | succ F2 =>
                have hlen : (escList cs ++ '"' :: rest).length < F2 := by
                  simp only [escList, escapeChar, List.length_append, List.length_cons] at hf
                  simp only [List.length_append, List.length_cons]
                  simp at hf
                  omega
                simp [escList, escapeChar, List.cons_append, parseStringBody, parseEscape,
                  ih F2 rest hlen]
            · by_cases h5 : c = '\n'
              · subst h5
                cases F with
                | zero => simp [escList, escapeChar, List.length_append] at hf
                | succ F2 =>
                  have hlen : (escList cs ++ '"' :: rest).length < F2 := by
                    simp only [escList, escapeChar, List.length_append,
                      List.length_cons] at hf
                    simp only [List.length_append, List.length_cons]
                    simp at hf
                    omega
                  simp [escList, escapeChar, List.cons_append, parseStringBody,
                    parseEscape, ih F2 rest hlen]
              · by_cases h6 : c = '\r'
                · subst h6
                  cases F with
                  | zero => simp [escList, escapeChar, List.length_append] at hf
                  | succ F2 =>
                    have hlen : (escList cs ++ '"' :: rest).length < F2 := by
                      simp only [escList, escapeChar, List.length_append,
                        List.length_cons] at hf
                      simp only [List.length_append, List.length_cons]
                      simp at hf
                      omega
                    simp [escList, escapeChar, List.cons_append, parseStringBody,
                      parseEscape, ih F2 rest hlen]
                · by_cases h7 : c = '\t'
                  · subst h7
                    cases F with
                    | zero => simp [escList, escapeChar, List.length_append] at hf
                    | succ F2 =>
                      have hlen : (escList cs ++ '"' :: rest).length < F2 := by
                        simp only [escList, escapeChar, List.length_append,
                          List.length_cons] at hf
                        simp only [List.length_append, List.length_cons]
                        simp at hf
                        omega
                      simp [escList, escapeChar, List.cons_append, parseStringBody,
                        parseEscape, ih F2 rest hlen]
                  · by_cases h8 : c.toNat < 0x20
                    · have hesc : escapeChar c =
                          ['\\', 'u', '0', '0', hexDigitChar (c.toNat / 16),
                            hexDigitChar (c.toNat % 16)] := by
                        simp [escapeChar, h1, h2, h3, h4, h5, h6, h7, h8]
                      cases F with
                      | zero =>
                        simp only [escList, hesc, List.length_append,
                          List.length_cons] at hf
                        simp at hf
                      | succ F2 =>
                        have hlen : (escList cs ++ '"' :: rest).length < F2 := by
                          simp only [escList, hesc, List.length_append,
                            List.length_cons] at hf
                          simp only [List.length_append, List.length_cons]
                          simp at hf
                          omega
                        have hz : hexVal '0' = some 0 := by decide
                        have hd1 : hexVal (hexDigitChar (c.toNat / 16)) =
                            some (c.toNat / 16) := hexVal_hexDigitChar _ (by omega)
                        have hd2 : hexVal (hexDigitChar (c.toNat % 16)) =
                            some (c.toNat % 16) := hexVal_hexDigitChar _ (by omega)
                        have hcode : 0 * 4096 + 0 * 256 + c.toNat / 16 * 16 +
                            c.toNat % 16 = c.toNat := by omega
                        have hcode2 : c.toNat / 16 * 16 + c.toNat % 16 = c.toNat := by
                          omega
                        have hns1 : ¬(0xD800 ≤ c.toNat ∧ c.toNat ≤ 0xDBFF) := by omega
                        have hns2 : ¬(0xDC00 ≤ c.toNat ∧ c.toNat ≤ 0xDFFF) := by omega
                        simp [escList, hesc, List.cons_append, parseStringBody,
                          parseEscape, hz, hd1, hd2, hcode, hcode2, hns1, hns2,
                          ih F2 rest hlen]
                    · have hesc : escapeChar c = [c] := by
                        simp [escapeChar, h1, h2, h3, h4, h5, h6, h7, h8]
                      have hlen : (escList cs ++ '"' :: rest).length < F := by
                        simp only [escList, hesc, List.length_append,
                          List.length_cons] at hf
                        simp only [List.length_append, List.length_cons]
                        simp at hf
                        omega
                      simp [escList, hesc, List.cons_append, parseStringBody,
                        h1, h2, h8, ih F rest hlen]

/-! ## The parser only produces well-formed values -/

theorem parse_wf : ∀ fuel : Nat,
    (∀ l j r, parseValue fuel l = some (j, r) → wfJson j = true) ∧
    (∀ l es r, parseElems fuel l = some (es, r) → wfElems es = true) ∧
    (∀ l ms r, parseMembers fuel l = some (ms, r) → wfMems ms = true) := by
  intro fuel
  induction fuel with
  | zero =>
    refine ⟨?_, ?_, ?_⟩ <;> (intro l x r h; exact Option.noConfusion h)
  | succ f ih =>
    obtain ⟨ihV, ihE, ihM⟩ := ih
    refine ⟨?_, ?_, ?_⟩
    · intro l j r h
      simp only [parseValue] at h
      split at h
      · simp only [Option.some.injEq, Prod.mk.injEq] at h
        obtain ⟨rfl, rfl⟩ := h; rfl
      · simp only [Option.some.injEq, Prod.mk.injEq] at h
        obtain ⟨rfl, rfl⟩ := h; rfl
      · simp only [Option.some.injEq, Prod.mk.injEq] at h
        obtain ⟨rfl, rfl⟩ := h; rfl
      · split at h
        · simp only [Option.some.injEq, Prod.mk.injEq] at h
          obtain ⟨rfl, rfl⟩ := h; rfl
        · exact Option.noConfusion h
      · split at h
        · simp only [Option.some.injEq, Prod.mk.injEq] at h
          obtain ⟨rfl, rfl⟩ := h; rfl
        · split at h
          · rename_i es r2 helems
            simp only [Option.some.injEq, Prod.mk.injEq] at h
            obtain ⟨rfl, rfl⟩ := h
            simpa [wfJson] using ihE _ _ _ helems
          · exact Option.noConfusion h
      · split at h
        · simp only [Option.some.injEq, Prod.mk.injEq] at h
          obtain ⟨rfl, rfl⟩ := h; rfl
        · split at h
          · rename_i ms r2 hmems
            simp only [Option.some.injEq, Prod.mk.injEq] at h
            obtain ⟨rfl, rfl⟩ := h
            simpa [wfJson] using ihM _ _ _ hmems
          · exact Option.noConfusion h
      · split at h
        · rename_i lit r2 hnum
          simp only [Option.some.injEq, Prod.mk.injEq] at h
          obtain ⟨rfl, rfl⟩ := h
          simp [wfJson]
          exact parseNumber_self _ _ _ hnum
        · exact Option.noConfusion h
    · intro l es r h
      simp only [parseElems] at h
      split at h
      · exact Option.noConfusion h
      · rename_i j r1 hval
        split at h
        · split at h
          · rename_i es2 r2 helems
            simp only [Option.some.injEq, Prod.mk.injEq] at h
            obtain ⟨rfl, rfl⟩ := h
            simp [wfElems]
            exact ⟨ihV _ _ _ hval, ihE _ _ _ helems⟩
          · exact Option.noConfusion h
        · simp only [Option.some.injEq, Prod.mk.injEq] at h
          obtain ⟨rfl, rfl⟩ := h
          simp [wfElems]
          exact ihV _ _ _ hval
        · exact Option.noConfusion h
    · intro l ms r h
      simp only [parseMembers] at h
      split at h
      · split at h
        · exact Option.noConfusion h
        · rename_i k r1 hstr
          split at h
          · split at h
            · exact Option.noConfusion h
            · rename_i v r3 hval
              split at h
              · split at h
                · rename_i ms2 r5 hmems
                  simp only [Option.some.injEq, Prod.mk.injEq] at h
                  obtain ⟨rfl, rfl⟩ := h
                  simp [wfMems]
                  exact ⟨ihV _ _ _ hval, ihM _ _ _ hmems⟩
                · exact Option.noConfusion h
              · simp only [Option.some.injEq, Prod.mk.injEq] at h
                obtain ⟨rfl, rfl⟩ := h
                simp [wfMems]
                exact ihV _ _ _ hval
              · exact Option.noConfusion h
          · exact Option.noConfusion h
      · exact Option.noConfusion h

theorem jsonParse_wf (s : String) (j : Json) (h : jsonParse s = some j) :
    wfJson j = true := by
  unfold jsonParse at h
  split at h
  · rename_i j2 rest hval
    split at h
    · simp only [Option.some.injEq] at h
      subst h
      exact (parse_wf _).1 _ _ _ hval
    · exact Option.noConfusion h
  · exact Option.noConfusion h

/-! ## Support lemmas for the serializer round trip -/

theorem parseNumber_nil : parseNumber [] = none := rfl

theorem skipJsonWs_cons_neg (c : Char) (l : List Char) (h : isJsonWs c = false) :
    skipJsonWs (c :: l) = c :: l := by
  simp [skipJsonWs, List.dropWhile_cons, h]

theorem weight_pos : ∀ j : Json, 1 ≤ weight j := by
  intro j
  cases j <;> simp [weight]

theorem printJson_head (j : Json) (hwf : wfJson j = true) :
    ∃ c t, printJson j = c :: t ∧
      (c = 'n' ∨ c = 't' ∨ c = 'f' ∨ c = '"' ∨ c = '[' ∨ c = '{' ∨ c = '-' ∨
        isDigitChar c = true) := by
  cases j with
  | null => exact ⟨'n', ['u', 'l', 'l'], by simp [printJson], by simp⟩
  | bool b =>
    cases b
    · exact ⟨'f', ['a', 'l', 's', 'e'], by simp [printJson], by simp⟩
    · exact ⟨'t', ['r', 'u', 'e'], by simp [printJson], by simp⟩
  | num lit =>
    have hself : parseNumber lit.data = some (lit.data, []) := by
      have : wfJson (Json.num lit) = (parseNumber lit.data == some (lit.data, [])) := rfl
      rw [this] at hwf
      exact eq_of_beq hwf
    obtain ⟨hs, _⟩ := parseNumber_decomp lit.data lit.data [] hself
    obtain ⟨c, t, hlit, hc⟩ := numShape_head lit.data hs
    refine ⟨c, t, ?_, ?_⟩
    · simpa [printJson] using hlit
    · rcases hc with rfl | hd
      · simp
      · simp [hd]
  | str s => exact ⟨'"', escList s.data ++ ['"'], by simp [printJson], by simp⟩
  | arr es =>
    cases es with
    | nil => exact ⟨'[', [']'], by simp [printJson], by simp⟩
    | cons e es2 =>
      exact ⟨'[', printElemsP e es2 ++ [']'], by simp [printJson], by simp⟩
  | obj ms =>
    cases ms with
    | nil => exact ⟨'{', ['}'], by simp [printJson], by simp⟩
    | cons m ms2 =>
      exact ⟨'{', printMembersP m ms2 ++ ['}'], by simp [printJson], by simp⟩

theorem valueStart_facts (c : Char)
    (h : c = 'n' ∨ c = 't' ∨ c = 'f' ∨ c = '"' ∨ c = '[' ∨ c = '{' ∨ c = '-' ∨
      isDigitChar c = true) :
    isJsonWs c = false ∧ c ≠ ']' ∧ c ≠ '}' := by
  rcases h with rfl | rfl | rfl | rfl | rfl | rfl | rfl | hd
  · exact ⟨by decide, by decide, by decide⟩
  · exact ⟨by decide, by decide, by decide⟩
  · exact ⟨by decide, by decide, by decide⟩
  · exact ⟨by decide, by decide, by decide⟩
  · exact ⟨by decide, by decide, by decide⟩
  · exact ⟨by decide, by decide, by decide⟩
  · exact ⟨by decide, by decide, by decide⟩
  · simp only [isDigitChar, Bool.and_eq_true, decide_eq_true_eq] at hd
    refine ⟨?_, ?_, ?_⟩
    · simp only [isJsonWs]
      simp only [Bool.or_eq_false_iff, decide_eq_false_iff_not]
      omega
    · intro hEq; subst hEq; simp at hd
    · intro hEq; subst hEq; simp at hd

theorem printElemsP_head (e : Json) (es : List Json) (c0 : Char) (t0 : List Char)
    (hpe : printJson e = c0 :: t0) : ∃ t, printElemsP e es = c0 :: t := by
  cases es with
  | nil => exact ⟨t0, by simp [printElemsP, hpe]⟩
  | cons e2 es2 =>
    exact ⟨t0 ++ ',' :: printElemsP e2 es2, by simp [printElemsP, hpe]⟩

theorem printMembersP_head (m : String × Json) (ms : List (String × Json)) :
    ∃ t, printMembersP m ms = '"' :: t := by
  obtain ⟨k, v⟩ := m
  cases ms with
  | nil =>
    exact ⟨escList k.data ++ '"' :: ':' :: printJson v, by simp [printMembersP]⟩
  | cons m2 ms2 =>
    exact ⟨(escList k.data ++ '"' :: ':' :: printJson v) ++ ',' :: printMembersP m2 ms2,
      by simp [printMembersP]⟩

theorem prod_snd_sizeOf_lt (p : String × Json) : sizeOf p.2 < sizeOf p := by
  obtain ⟨a, b⟩ := p
  simp only [Prod.mk.sizeOf_spec]
  omega

mutual

theorem weight_le_print (j : Json) (hwf : wfJson j = true) :
    weight j ≤ (printJson j).length := by
  cases j with
  | null => simp [weight, printJson]
  | bool b => cases b <;> simp [weight, printJson]
  | num lit =>
    have hself : parseNumber lit.data = some (lit.data, []) := by
      have : wfJson (Json.num lit) = (parseNumber lit.data == some (lit.data, [])) := rfl
      rw [this] at hwf
      exact eq_of_beq hwf
    have hne : lit.data ≠ [] := by
      intro hEq
      rw [hEq, parseNumber_nil] at hself
      exact Option.noConfusion hself
    have : 1 ≤ lit.data.length := by
      cases hl : lit.data with
      | nil => exact absurd hl hne
      | cons a t => simp
    simpa [weight, printJson] using this
  | str s => simp [weight, printJson]
  | arr es =>
    cases es with
    | nil => simp [weight, weightElems, printJson]
    | cons e es2 =>
      have h2 := weightElems_le_print e es2 (by simpa [wfJson] using hwf)
      simp only [weight, weightElems, printJson, List.length_cons, List.length_append]
      omega
  | obj ms =>
    cases ms with
    | nil => simp [weight, weightMems, printJson]
    | cons m ms2 =>
      have h2 := weightMems_le_print m ms2 (by simpa [wfJson] using hwf)
      simp only [weight, weightMems, printJson, List.length_cons, List.length_append]
      omega
  termination_by sizeOf j

theorem weightElems_le_print (e : Json) (es : List Json)
    (hwf : wfElems (e :: es) = true) :
    weight e + weightElems es ≤ (printElemsP e es).length := by
  have hwe : wfJson e = true := by
    simp only [wfElems, Bool.and_eq_true] at hwf
    exact hwf.1
  cases es with
  | nil =>
    have h1 := weight_le_print e hwe
    simp only [printElemsP, weightElems]
    omega
  | cons e2 es2 =>
    have h1 := weight_le_print e hwe
    have h2 := weightElems_le_print e2 es2 (by
      simp only [wfElems, Bool.and_eq_true] at hwf
      simp only [wfElems, Bool.and_eq_true]
      exact hwf.2)
    simp only [printElemsP, weightElems, List.length_append, List.length_cons]
    omega
  termination_by sizeOf (e :: es)

theorem weightMems_le_print (m : String × Json) (ms : List (String × Json))
    (hwf : wfMems (m :: ms) = true) :
    weight m.2 + weightMems ms ≤ (printMembersP m ms).length := by
  have hwv : wfJson m.2 = true := by
    simp only [wfMems, Bool.and_eq_true] at hwf
    exact hwf.1
  cases ms with
  | nil =>
    have h1 := weight_le_print m.2 hwv
    obtain ⟨k, v⟩ := m
    simp only [printMembersP, weightMems, List.length_cons, List.length_append]
    simp only [List.length_append] at h1
    omega
  | cons m2 ms2 =>
    have h1 := weight_le_print m.2 hwv
    have h2 := weightMems_le_print m2 ms2 (by
      simp only [wfMems, Bool.and_eq_true] at hwf
      simp only [wfMems, Bool.and_eq_true]
      exact hwf.2)
    obtain ⟨k, v⟩ := m
    simp only [printMembersP, weightMems, List.length_cons, List.length_append]
    simp only [List.length_append] at h1 h2
    omega
  termination_by sizeOf (m :: ms)
  decreasing_by
    all_goals
      (simp_wf
       subst_vars
       have hp := prod_snd_sizeOf_lt m
       try simp only [List.cons.sizeOf_spec, List.nil.sizeOf_spec]
       omega)

end

/-! ## The serializer output reparses to the same value -/

theorem numBoundary_comma (t : List Char) : NumBoundary (',' :: t) :=
  numBoundary_cons ',' t (by decide) (by decide) (by decide) (by decide)

theorem numBoundary_rbracket (t : List Char) : NumBoundary (']' :: t) :=
  numBoundary_cons ']' t (by decide) (by decide) (by decide) (by decide)

theorem numBoundary_rbrace (t : List Char) : NumBoundary ('}' :: t) :=
  numBoundary_cons '}' t (by decide) (by decide) (by decide) (by decide)

mutual

theorem parseValue_print (j : Json) (hwf : wfJson j = true) :
    ∀ (fuel : Nat), weight j ≤ fuel → ∀ rest : List Char, NumBoundary rest →
      parseValue fuel (printJson j ++ rest) = some (j, rest) := by
  intro fuel hw rest hrest
  cases fuel with
  | zero => exact absurd (Nat.le_trans (weight_pos j) hw) (by omega)
  | succ f =>
    cases j with
    | null => simp [printJson, parseValue, skipJsonWs, isJsonWs]
    | bool b => cases b <;> simp [printJson, parseValue, skipJsonWs, isJsonWs]
    | str s =>
      have hesc := parseStringBody_escape s.data
        ((escList s.data ++ '"' :: rest).length + 1) rest (by omega)
      have hred : parseValue (Nat.succ f) ('"' :: (escList s.data ++ '"' :: rest)) =
          (match parseStringBody ((escList s.data ++ '"' :: rest).length + 1)
              (escList s.data ++ '"' :: rest) with
           | some (cs, r1) => some (Json.str ⟨cs⟩, r1)
           | none => none) := rfl
      simp only [printJson, List.cons_append, List.append_assoc, List.nil_append]
      rw [hred, hesc]
    | num lit =>
      have hself : parseNumber lit.data = some (lit.data, []) := by
        have hrw : wfJson (Json.num lit) =
            (parseNumber lit.data == some (lit.data, [])) := rfl
        rw [hrw] at hwf
        exact eq_of_beq hwf
      obtain ⟨hs, _⟩ := parseNumber_decomp lit.data lit.data [] hself
      have hreplay := parseNumber_replay lit.data rest hs hrest
      obtain ⟨c, t, hlit, hcls⟩ := numShape_head lit.data hs
      have hws : isJsonWs c = false := by
        rcases hcls with rfl | hd
        · decide
        · simp only [isDigitChar, Bool.and_eq_true, decide_eq_true_eq] at hd
          simp only [isJsonWs, Bool.or_eq_false_iff, decide_eq_false_iff_not]
          omega
      have hcn : c ≠ 'n' := by
        rcases hcls with rfl | hd
        · decide
        · intro hEq; subst hEq; simp [isDigitChar] at hd
      have hct : c ≠ 't' := by
        rcases hcls with rfl | hd
        · decide
        · intro hEq; subst hEq; simp [isDigitChar] at hd
      have hcf : c ≠ 'f' := by
        rcases hcls with rfl | hd
        · decide
        · intro hEq; subst hEq; simp [isDigitChar] at hd
      have hcq : c ≠ '"' := by
        rcases hcls with rfl | hd
        · decide
        · intro hEq; subst hEq; simp [isDigitChar] at hd
      have hcl : c ≠ '[' := by
        rcases hcls with rfl | hd
        · decide
        · intro hEq; subst hEq; simp [isDigitChar] at hd
      have hco : c ≠ '{' := by
        rcases hcls with rfl | hd
        · decide
        · intro hEq; subst hEq; simp [isDigitChar] at hd
      have hlits : (Json.num lit) = Json.num ⟨lit.data⟩ := rfl
      simp only [printJson]
      have hgoal : lit.data ++ rest = c :: (t ++ rest) := by rw [hlit]; rfl
      rw [hgoal]
      simp only [parseValue]
      rw [skipJsonWs_cons_neg c _ hws]
      split
      · rename_i heq
        simp only [List.cons.injEq] at heq
        exact absurd heq.1 hcn
      · rename_i heq
        simp only [List.cons.injEq] at heq
        exact absurd heq.1 hct
      · rename_i heq
        simp only [List.cons.injEq] at heq
        exact absurd heq.1 hcf
      · rename_i heq
        simp only [List.cons.injEq] at heq
        exact absurd heq.1 hcq
      · rename_i heq
        simp only [List.cons.injEq] at heq
        exact absurd heq.1 hcl
      · rename_i heq
        simp only [List.cons.injEq] at heq
        exact absurd heq.1 hco
      · have hsc : c :: (t ++ rest) = lit.data ++ rest := hgoal.symm
        rw [hsc, hreplay]
    | arr es =>
      cases es with
      | nil => simp [printJson, parseValue, skipJsonWs, isJsonWs]
      | cons e es2 =>
        have hwe : wfElems (e :: es2) = true := by simpa [wfJson] using hwf
        have hwe1 : wfJson e = true := by
          simp only [wfElems, Bool.and_eq_true] at hwe
          exact hwe.1
        obtain ⟨c0, t0, hpe, hcls⟩ := printJson_head e hwe1
        obtain ⟨hws0, hne0, _⟩ := valueStart_facts c0 hcls
        obtain ⟨t1, hpes⟩ := printElemsP_head e es2 c0 t0 hpe
        have hwbound : weight e + weightElems es2 + 1 ≤ f := by
          simp only [weight, weightElems] at hw
          omega
        have helems := parseElems_print e es2 hwe f hwbound rest
        have hskip : skipJsonWs (printElemsP e es2 ++ ']' :: rest) =
            printElemsP e es2 ++ ']' :: rest := by
          rw [hpes, List.cons_append]
          exact skipJsonWs_cons_neg c0 _ hws0
        have hred : parseValue (Nat.succ f) ('[' :: (printElemsP e es2 ++ ']' :: rest)) =
            (match skipJsonWs (printElemsP e es2 ++ ']' :: rest) with
             | ']' :: r1 => some (Json.arr [], r1)
             | r1 =>
               match parseElems f r1 with
               | some (es3, r2) => some (Json.arr es3, r2)
               | none => none) := rfl
        simp only [printJson, List.cons_append, List.append_assoc, List.nil_append]
        rw [hred, hskip]
        split
        · rename_i r1 heq
          rw [hpes, List.cons_append] at heq
          simp only [List.cons.injEq] at heq
          exact absurd heq.1 hne0
        · rw [helems]
    | obj ms =>
      cases ms with
      | nil => simp [printJson, parseValue, skipJsonWs, isJsonWs]
      | cons m ms2 =>
        have hwm : wfMems (m :: ms2) = true := by simpa [wfJson] using hwf
        obtain ⟨t1, hpms⟩ := printMembersP_head m ms2
        have hwbound : weight m.2 + weightMems ms2 + 1 ≤ f := by
          simp only [weight, weightMems] at hw
          omega
        have hmems := parseMembers_print m ms2 hwm f hwbound rest
        have hskip : skipJsonWs (printMembersP m ms2 ++ '}' :: rest) =
            printMembersP m ms2 ++ '}' :: rest := by
          rw [hpms, List.cons_append]
          exact skipJsonWs_cons_neg '"' _ (by decide)
        have hred : parseValue (Nat.succ f) ('{' :: (printMembersP m ms2 ++ '}' :: rest)) =
            (match skipJsonWs (printMembersP m ms2 ++ '}' :: rest) with
             | '}' :: r1 => some (Json.obj [], r1)
             | r1 =>
               match parseMembers f r1 with
               | some (ms3, r2) => some (Json.obj ms3, r2)
               | none => none) := rfl
        simp only [printJson, List.cons_append, List.append_assoc, List.nil_append]
        rw [hred, hskip]
        split
        · rename_i r1 heq
          rw [hpms, List.cons_append] at heq
          simp only [List.cons.injEq] at heq
          exact absurd heq.1 (by decide)
        · rw [hmems]
  termination_by sizeOf j

theorem parseElems_print (e : Json) (es : List Json) (hwf : wfElems (e :: es) = true) :
    ∀ (fuel : Nat), weight e + weightElems es + 1 ≤ fuel → ∀ rest : List Char,
      parseElems fuel (printElemsP e es ++ ']' :: rest) = some (e :: es, rest) := by
  intro fuel hw rest
  cases fuel with
  | zero => exact absurd hw (by omega)
  | succ f =>
    have hwe1 : wfJson e = true := by
      simp only [wfElems, Bool.and_eq_true] at hwf
      exact hwf.1
    cases es with
    | nil =>
      have hval := parseValue_print e hwe1 f (by
          simp only [weightElems] at hw
          omega)
        (']' :: rest) (numBoundary_rbracket rest)
      simp only [printElemsP]
      simp only [parseElems]
      rw [hval]
      simp [skipJsonWs, isJsonWs]
    | cons e2 es2 =>
      have hwe2 : wfElems (e2 :: es2) = true := by
        simp only [wfElems, Bool.and_eq_true] at hwf ⊢
        exact hwf.2
      have hval := parseValue_print e hwe1 f (by
          simp only [weightElems] at hw
          omega)
        (',' :: (printElemsP e2 es2 ++ ']' :: rest)) (numBoundary_comma _)
      have hrec := parseElems_print e2 es2 hwe2 f (by
          simp only [weightElems] at hw
          omega) rest
      simp only [printElemsP, List.cons_append, List.append_assoc]
      simp only [parseElems]
      rw [hval]
      simp [skipJsonWs, isJsonWs, hrec]
  termination_by sizeOf (e :: es)

theorem parseMembers_print (m : String × Json) (ms : List (String × Json))
    (hwf : wfMems (m :: ms) = true) :
    ∀ (fuel : Nat), weight m.2 + weightMems ms + 1 ≤ fuel → ∀ rest : List Char,
      parseMembers fuel (printMembersP m ms ++ '}' :: rest) = some (m :: ms, rest) := by
  intro fuel hw rest
  cases fuel with
  | zero => exact absurd hw (by omega)
  | succ f =>
    have hwv : wfJson m.2 = true := by
      simp only [wfMems, Bool.and_eq_true] at hwf
      exact hwf.1
    cases ms with
    | nil =>
      have hval := parseValue_print m.2 hwv f (by
          simp only [weightMems] at hw
          omega)
        ('}' :: rest) (numBoundary_rbrace rest)
      obtain ⟨k, v⟩ := m
      have hred : parseMembers (Nat.succ f)
          ('"' :: (escList k.data ++ '"' :: ':' :: (printJson v ++ '}' :: rest))) =
          (match parseStringBody
              ((escList k.data ++ '"' :: ':' :: (printJson v ++ '}' :: rest)).length + 1)
              (escList k.data ++ '"' :: ':' :: (printJson v ++ '}' :: rest)) with
           | none => none
           | some (k1, r1) =>
             match skipJsonWs r1 with
             | ':' :: r2 =>
               (match parseValue f r2 with
                | none => none
                | some (v1, r3) =>
                  match skipJsonWs r3 with
                  | ',' :: r4 =>
                    (match parseMembers f r4 with
                     | some (ms1, r5) => some ((⟨k1⟩, v1) :: ms1, r5)
                     | none => none)
                  | '}' :: r4 => some ([(⟨k1⟩, v1)], r4)
                  | _ => none)
             | _ => none) := rfl
      have hesc := parseStringBody_escape k.data
        ((escList k.data ++ '"' :: ':' :: (printJson v ++ '}' :: rest)).length + 1)
        (':' :: (printJson v ++ '}' :: rest)) (by omega)
      simp only [printMembersP, List.cons_append, List.append_assoc, List.nil_append]
      rw [hred, hesc]
      simp [skipJsonWs, isJsonWs, List.dropWhile_cons, hval]
    | cons m2 ms2 =>
      have hwm2 : wfMems (m2 :: ms2) = true := by
        simp only [wfMems, Bool.and_eq_true] at hwf ⊢
        exact hwf.2
      have hval := parseValue_print m.2 hwv f (by
          simp only [weightMems] at hw
          omega)
        (',' :: (printMembersP m2 ms2 ++ '}' :: rest)) (numBoundary_comma _)
      have hrec := parseMembers_print m2 ms2 hwm2 f (by
          simp only [weightMems] at hw
          omega) rest
      obtain ⟨k, v⟩ := m
      have hred : parseMembers (Nat.succ f)
          ('"' :: (escList k.data ++ '"' :: ':' ::
            (printJson v ++ ',' :: (printMembersP m2 ms2 ++ '}' :: rest)))) =
          (match parseStringBody
              ((escList k.data ++ '"' :: ':' ::
                (printJson v ++ ',' :: (printMembersP m2 ms2 ++ '}' :: rest))).length + 1)
              (escList k.data ++ '"' :: ':' ::
                (printJson v ++ ',' :: (printMembersP m2 ms2 ++ '}' :: rest))) with
           | none => none
           | some (k1, r1) =>
             match skipJsonWs r1 with
             | ':' :: r2 =>
               (match parseValue f r2 with
                | none => none
                | some (v1, r3) =>
                  match skipJsonWs r3 with
                  | ',' :: r4 =>
                    (match parseMembers f r4 with
                     | some (ms1, r5) => some ((⟨k1⟩, v1) :: ms1, r5)
                     | none => none)
                  | '}' :: r4 => some ([(⟨k1⟩, v1)], r4)
                  | _ => none)
             | _ => none) := rfl
      have hesc := parseStringBody_escape k.data
        ((escList k.data ++ '"' :: ':' ::
          (printJson v ++ ',' :: (printMembersP m2 ms2 ++ '}' :: rest))).length + 1)
        (':' :: (printJson v ++ ',' :: (printMembersP m2 ms2 ++ '}' :: rest))) (by omega)
      simp only [printMembersP, List.cons_append, List.append_assoc, List.nil_append]
      rw [hred, hesc]
      simp [skipJsonWs, isJsonWs, List.dropWhile_cons, hval, hrec]
  termination_by sizeOf (m :: ms)
  decreasing_by
    all_goals
      (simp_wf
       subst_vars
       have hp := prod_snd_sizeOf_lt m
       try simp only [List.cons.sizeOf_spec, List.nil.sizeOf_spec]
       omega)

end

/-! ## From the round trip to the normalizer -/

theorem jsonParse_mk (l : List Char) :
    jsonParse ⟨l⟩ =
      (match parseValue (2 * l.length + 2) l with
       | some (j, rest) => if skipJsonWs rest = [] then some j else none
       | none => none) := rfl

/-- A well-formed value reparses from its serialization. -/
theorem jsonParse_print (j : Json) (hwf : wfJson j = true) :
    jsonParse ⟨printJson j⟩ = some j := by
  have hb := weight_le_print j hwf
  have hval := parseValue_print j hwf (2 * (printJson j).length + 2) (by omega)
    [] numBoundary_nil
  rw [List.append_nil] at hval
  rw [jsonParse_mk, hval]
  rfl

/-- When JSON.parse yields a non-null value, the try-block succeeds and the
result is built from the four property accesses. -/
theorem structuredAttempt_some (s : String) (j : Json) (h : jsonParse s = some j)
    (hnn : j ≠ Json.null) :
    structuredAttempt s = some
      { uxInsights := jsOrArr (getMem j "uxInsights"),
        visualDesign := jsOrArr (getMem j "visualDesign"),
        bestPractices := jsOrArr (getMem j "bestPractices"),
        annotations := jsOrArr (getMem j "annotations") } := by
  unfold structuredAttempt
  rw [h]
  cases j with
  | null => exact absurd rfl hnn
  | bool b => rfl
  | num lit => rfl
  | str s2 => rfl
  | arr es => rfl
  | obj ms => rfl

/-- Inversion: a successful try-block comes from a parsed value. -/
theorem structuredAttempt_inv (s : String) (r : AnalysisResponse)
    (h : structuredAttempt s = some r) :
    ∃ j, jsonParse s = some j ∧ wfJson j = true ∧
      r = { uxInsights := jsOrArr (getMem j "uxInsights"),
            visualDesign := jsOrArr (getMem j "visualDesign"),
            bestPractices := jsOrArr (getMem j "bestPractices"),
            annotations := jsOrArr (getMem j "annotations") } := by
  unfold structuredAttempt at h
  rcases hp : jsonParse s with _ | j
  · rw [hp] at h; exact Option.noConfusion h
  · rw [hp] at h
    refine ⟨j, rfl, jsonParse_wf s j hp, ?_⟩
    cases j with
    | null => exact Option.noConfusion h
    | bool b =>
      simp only [Option.some.injEq] at h
      exact h.symm
    | num lit =>
      simp only [Option.some.injEq] at h
      exact h.symm
    | str s2 =>
      simp only [Option.some.injEq] at h
      exact h.symm
    | arr es =>
      simp only [Option.some.injEq] at h
      exact h.symm
    | obj ms =>
      simp only [Option.some.injEq] at h
      exact h.symm

theorem truthy_jsOrArr (v : Option Json) : truthy (jsOrArr v) = true := by
  cases v with
  | none => rfl
  | some x =>
    simp only [jsOrArr]
    split
    · rename_i hx; exact hx
    · rfl

theorem jsOrArr_some_truthy (x : Json) (hx : truthy x = true) :
    jsOrArr (some x) = x := by
  simp [jsOrArr, hx]

theorem wfMems_mem (ms : List (String × Json)) (hwf : wfMems ms = true) :
    ∀ m ∈ ms, wfJson m.2 = true := by
  induction ms with
  | nil => intro m hm; cases hm
  | cons m2 ms2 ih =>
    intro m hm
    obtain ⟨k, v⟩ := m2
    simp only [wfMems, Bool.and_eq_true] at hwf
    rcases List.mem_cons.mp hm with rfl | hm2
    · exact hwf.1
    · exact ih hwf.2 m hm2

/-- A property successfully read off a well-formed value is well formed. -/
theorem getMem_wf (j : Json) (k : String) (x : Json) (hwf : wfJson j = true)
    (h : getMem j k = some x) : wfJson x = true := by
  cases j with
  | obj ms =>
    simp only [getMem, lookupMem] at h
    rcases hfind : ms.reverse.find? (fun m => m.1 == k) with _ | m
    · rw [hfind] at h
      exact Option.noConfusion h
    · rw [hfind] at h
      simp only [Option.map_some', Option.some.injEq] at h
      subst h
      have hmem : m ∈ ms.reverse := List.mem_of_find?_eq_some hfind
      have hmem2 : m ∈ ms := List.mem_reverse.mp hmem
      have hwfm : wfMems ms = true := by simpa [wfJson] using hwf
      exact wfMems_mem ms hwfm m hmem2
  | null => exact Option.noConfusion h
  | bool b => exact Option.noConfusion h
  | num lit => exact Option.noConfusion h
  | str s2 => exact Option.noConfusion h
  | arr es => exact Option.noConfusion h

theorem jsOrArr_getMem_wf (j : Json) (k : String) (hwf : wfJson j = true) :
    wfJson (jsOrArr (getMem j k)) = true := by
  rcases hg : getMem j k with _ | x
  · rfl
  · have hx := getMem_wf j k x hwf hg
    simp only [jsOrArr]
    split
    · exact hx
    · rfl

theorem wfElems_map_str (l : List String) : wfElems (l.map Json.str) = true := by
  induction l with
  | nil => rfl
  | cons a l2 ih => simp [wfElems, wfJson, ih]

/-- The normalizer picks the branch of its match according to the try-block
outcome. -/
theorem parseOpenRouterResponse_structured (s : String) (r : AnalysisResponse)
    (h : structuredAttempt s = some r) : parseOpenRouterResponse s = r := by
  unfold parseOpenRouterResponse
  rw [h]

theorem parseOpenRouterResponse_fallback (s : String)
    (h : structuredAttempt s = none) :
    parseOpenRouterResponse s = fallbackParse s := by
  unfold parseOpenRouterResponse
  rw [h]

/-- Every field of a normalizer result is well formed. -/
theorem normalize_wf (s : String) :
    wfJson (parseOpenRouterResponse s).uxInsights = true ∧
    wfJson (parseOpenRouterResponse s).visualDesign = true ∧
    wfJson (parseOpenRouterResponse s).bestPractices = true ∧
    wfJson (parseOpenRouterResponse s).annotations = true := by
  rcases hsa : structuredAttempt s with _ | r
  · rw [parseOpenRouterResponse_fallback s hsa]
    unfold fallbackParse
    split
    · exact ⟨by simp [wfJson, wfElems], rfl, rfl, rfl⟩
    · exact ⟨by simp [wfJson, wfElems_map_str], by simp [wfJson, wfElems_map_str],
        by simp [wfJson, wfElems_map_str], rfl⟩
  · rw [parseOpenRouterResponse_structured s r hsa]
    obtain ⟨j, hp, hwj, rfl⟩ := structuredAttempt_inv s r hsa
    exact ⟨jsOrArr_getMem_wf j _ hwj, jsOrArr_getMem_wf j _ hwj,
      jsOrArr_getMem_wf j _ hwj, jsOrArr_getMem_wf j _ hwj⟩

/-- Every field of a normalizer result is truthy (in particular none is the
JavaScript undefined or null: the fields are always populated). -/
theorem normalize_truthy (s : String) :
    truthy (parseOpenRouterResponse s).uxInsights = true ∧
    truthy (parseOpenRouterResponse s).visualDesign = true ∧
    truthy (parseOpenRouterResponse s).bestPractices = true ∧
    truthy (parseOpenRouterResponse s).annotations = true := by
  rcases hsa : structuredAttempt s with _ | r
  · rw [parseOpenRouterResponse_fallback s hsa]
    unfold fallbackParse
    split
    · exact ⟨rfl, rfl, rfl, rfl⟩
    · exact ⟨rfl, rfl, rfl, rfl⟩
  · rw [parseOpenRouterResponse_structured s r hsa]
    obtain ⟨j, hp, hwj, rfl⟩ := structuredAttempt_inv s r hsa
    exact ⟨truthy_jsOrArr _, truthy_jsOrArr _, truthy_jsOrArr _, truthy_jsOrArr _⟩

theorem getMem_four (a b c d : Json) :
    getMem (Json.obj [("uxInsights", a), ("visualDesign", b),
      ("bestPractices", c), ("annotations", d)]) "uxInsights" = some a ∧
    getMem (Json.obj [("uxInsights", a), ("visualDesign", b),
      ("bestPractices", c), ("annotations", d)]) "visualDesign" = some b ∧
    getMem (Json.obj [("uxInsights", a), ("visualDesign", b),
      ("bestPractices", c), ("annotations", d)]) "bestPractices" = some c ∧
    getMem (Json.obj [("uxInsights", a), ("visualDesign", b),
      ("bestPractices", c), ("annotations", d)]) "annotations" = some d :=
  ⟨rfl, rfl, rfl, rfl⟩

/-- Re-normalizing the serialization of a response whose fields are well
formed and truthy gives the response back. -/
theorem stringify_roundtrip (r : AnalysisResponse)
    (w1 : wfJson r.uxInsights = true) (w2 : wfJson r.visualDesign = true)
    (w3 : wfJson r.bestPractices = true) (w4 : wfJson r.annotations = true)
    (t1 : truthy r.uxInsights = true) (t2 : truthy r.visualDesign = true)
    (t3 : truthy r.bestPractices = true) (t4 : truthy r.annotations = true) :
    parseOpenRouterResponse (stringifyResult r) = r := by
  have hwfO : wfJson (Json.obj [("uxInsights", r.uxInsights),
      ("visualDesign", r.visualDesign), ("bestPractices", r.bestPractices),
      ("annotations", r.annotations)]) = true := by
    simp [wfJson, wfMems, w1, w2, w3, w4]
  have hparse : jsonParse (stringifyResult r) = some (Json.obj
      [("uxInsights", r.uxInsights), ("visualDesign", r.visualDesign),
       ("bestPractices", r.bestPractices), ("annotations", r.annotations)]) :=
    jsonParse_print _ hwfO
  have hsa := structuredAttempt_some (stringifyResult r) _ hparse
    (by intro hh; exact Json.noConfusion hh)
  obtain ⟨g1, g2, g3, g4⟩ :=
    getMem_four r.uxInsights r.visualDesign r.bestPractices r.annotations
  have hfields : AnalysisResponse.mk
      (jsOrArr (getMem (Json.obj [("uxInsights", r.uxInsights),
        ("visualDesign", r.visualDesign), ("bestPractices", r.bestPractices),
        ("annotations", r.annotations)]) "uxInsights"))
      (jsOrArr (getMem (Json.obj [("uxInsights", r.uxInsights),
        ("visualDesign", r.visualDesign), ("bestPractices", r.bestPractices),
        ("annotations", r.annotations)]) "visualDesign"))
      (jsOrArr (getMem (Json.obj [("uxInsights", r.uxInsights),
        ("visualDesign", r.visualDesign), ("bestPractices", r.bestPractices),
        ("annotations", r.annotations)]) "bestPractices"))
      (jsOrArr (getMem (Json.obj [("uxInsights", r.uxInsights),
        ("visualDesign", r.visualDesign), ("bestPractices", r.bestPractices),
        ("annotations", r.annotations)]) "annotations")) = r := by
    rw [g1, g2, g3, g4, jsOrArr_some_truthy _ t1, jsOrArr_some_truthy _ t2,
      jsOrArr_some_truthy _ t3, jsOrArr_some_truthy _ t4]
  exact parseOpenRouterResponse_structured _ _
    (hsa.trans (congrArg some hfields))

/-- The `v || []` of the source coincides with a plain default when the
present value is an array. -/
theorem jsOrArr_getD (o : Option Json) (h : o.all isArrJson = true) :
    jsOrArr o = o.getD (Json.arr []) := by
  cases o with
  | none => rfl
  | some x =>
    cases x with
    | null => exact Bool.noConfusion h
    | bool b => exact Bool.noConfusion h
    | num lit => exact Bool.noConfusion h
    | str s2 => exact Bool.noConfusion h
    | arr es => rfl
    | obj ms => exact Bool.noConfusion h

/-! ## The claims -/

/-- C1 counterexample: on the specification's own sample input, the line
"1. Add alt text" is appended as ". Add alt text" — the replace regular
expression strips a single marker character (here the digit 1) and following
whitespace (there is none, since a period follows), not the whole marker
"1." — so bestPractices is not ["Add alt text"] as claimed. -/
theorem c1_counterexample :
    (parseOpenRouterResponse sampleText).bestPractices ≠
      Json.arr [Json.str "Add alt text"] := by
  intro h
  have h2 : Json.arr [Json.str ". Add alt text"] = Json.arr [Json.str "Add alt text"] := h
  simp only [Json.arr.injEq, List.cons.injEq, Json.str.injEq, and_true] at h2
  exact absurd h2 (by decide)

/-- C1 (amended): for every line that is not a section switch, starts (after
trimming) with a marker, and is non-empty after cleaning, the scan strips one
leading marker character together with any whitespace following it, trims the
remainder, and appends it to the current section; on the sample input this
yields uxInsights=["Good contrast","Confusing nav"], visualDesign=[], and
bestPractices=[". Add alt text"] (the marker of "1. Add alt text" is the
single digit, so the period survives). -/
theorem c1_amended (st : ScanState) (line : List Char)
    (hu : hasUxKw line = false) (hv : hasVisualKw line = false)
    (hb : hasBestKw line = false) (hbl : isBulletStart line = true)
    (hne : (cleanLine line).isEmpty = false) :
    processLine st line = pushItem st (jsTrim (stripLeadMarker line)) ∧
    parseOpenRouterResponse sampleText =
      ⟨Json.arr [Json.str "Good contrast", Json.str "Confusing nav"], Json.arr [],
       Json.arr [Json.str ". Add alt text"], Json.arr []⟩ := by
  constructor
  · simp [processLine, cleanLine, hu, hv, hb, hbl, hne]
    intro hx
    simp only [cleanLine] at hne
    rw [hx] at hne
    exact Bool.noConfusion hne
  · rfl

theorem c1_amended_witness :
    (processLine initScan "- Good contrast".data =
      pushItem initScan (jsTrim (stripLeadMarker "- Good contrast".data))) ∧
    parseOpenRouterResponse sampleText =
      ⟨Json.arr [Json.str "Good contrast", Json.str "Confusing nav"], Json.arr [],
       Json.arr [Json.str ". Add alt text"], Json.arr []⟩ :=
  c1_amended initScan "- Good contrast".data (by decide) (by decide) (by decide)
    (by decide) (by decide)

/-- C2: the normalizer is a total function — it absorbs every input without
an error channel — and each of the three string-list fields of its result is
always populated (truthy: never the JavaScript undefined, null, or a falsy
placeholder). -/
theorem c2_total_fields_present (s : String) :
    truthy (parseOpenRouterResponse s).uxInsights = true ∧
    truthy (parseOpenRouterResponse s).visualDesign = true ∧
    truthy (parseOpenRouterResponse s).bestPractices = true :=
  ⟨(normalize_truthy s).1, (normalize_truthy s).2.1, (normalize_truthy s).2.2.1⟩

/-- C3: when the input parses as an object whose present relevant fields are
arrays, the result takes each of the four fields from the record if present
and an empty array otherwise, and the fallback scan is never consulted. -/
theorem c3_structured_fields (s : String) (ms : List (String × Json))
    (h : jsonParse s = some (Json.obj ms))
    (h1 : (lookupMem ms "uxInsights").all isArrJson = true)
    (h2 : (lookupMem ms "visualDesign").all isArrJson = true)
    (h3 : (lookupMem ms "bestPractices").all isArrJson = true)
    (h4 : (lookupMem ms "annotations").all isArrJson = true) :
    parseOpenRouterResponse s =
      { uxInsights := (lookupMem ms "uxInsights").getD (Json.arr []),
        visualDesign := (lookupMem ms "visualDesign").getD (Json.arr []),
        bestPractices := (lookupMem ms "bestPractices").getD (Json.arr []),
        annotations := (lookupMem ms "annotations").getD (Json.arr []) } := by
  have hsa := structuredAttempt_some s (Json.obj ms) h
    (by intro hh; exact Json.noConfusion hh)
  apply parseOpenRouterResponse_structured
  rw [hsa]
  simp only [getMem]
  rw [jsOrArr_getD _ h1, jsOrArr_getD _ h2, jsOrArr_getD _ h3, jsOrArr_getD _ h4]

theorem c3_witness :
    parseOpenRouterResponse
      "\x7b\"uxInsights\":[\"a\"],\"visualDesign\":[],\"bestPractices\":[\"b\"]\x7d" =
      ⟨Json.arr [Json.str "a"], Json.arr [], Json.arr [Json.str "b"], Json.arr []⟩ :=
  c3_structured_fields
    "\x7b\"uxInsights\":[\"a\"],\"visualDesign\":[],\"bestPractices\":[\"b\"]\x7d"
    [("uxInsights", Json.arr [Json.str "a"]), ("visualDesign", Json.arr []),
     ("bestPractices", Json.arr [Json.str "b"])]
    rfl rfl rfl rfl rfl

/-- C4: re-normalizing the JSON serialization of any normalizer result
reproduces that result exactly (idempotence through the structured path). -/
theorem c4_idempotent (s : String) :
    parseOpenRouterResponse (stringifyResult (parseOpenRouterResponse s)) =
      parseOpenRouterResponse s := by
  obtain ⟨w1, w2, w3, w4⟩ := normalize_wf s
  obtain ⟨t1, t2, t3, t4⟩ := normalize_truthy s
  exact stringify_roundtrip _ w1 w2 w3 w4 t1 t2 t3 t4

/-- C5: the scan tests the three keyword rules first, in the order
ux→visual→best; a matching line only moves the section pointer and leaves
all three arrays unchanged (even when it also carries a bullet marker), and
a line matching no rule and no bullet pattern is ignored entirely. -/
theorem c5_switch_priority (st : ScanState) (line : List Char) :
    (hasUxKw line = true →
      processLine st line = { st with currentSection := Sect.uxInsights }) ∧
    (hasUxKw line = false → hasVisualKw line = true →
      processLine st line = { st with currentSection := Sect.visualDesign }) ∧
    (hasUxKw line = false → hasVisualKw line = false → hasBestKw line = true →
      processLine st line = { st with currentSection := Sect.bestPractices }) ∧
    (hasUxKw line = false → hasVisualKw line = false → hasBestKw line = false →
      isBulletStart line = false → processLine st line = st) := by
  refine ⟨?_, ?_, ?_, ?_⟩
  · intro h1
    simp [processLine, h1]
  · intro h1 h2
    simp [processLine, h1, h2]
  · intro h1 h2 h3
    simp [processLine, h1, h2, h3]
  · intro h1 h2 h3 h4
    simp [processLine, h1, h2, h3, h4]

theorem c5_witness :
    (processLine initScan "- UX issues".data =
      { initScan with currentSection := Sect.uxInsights }) ∧
    processLine initScan "hello".data = initScan :=
  ⟨(c5_switch_priority initScan "- UX issues".data).1 (by decide),
   (c5_switch_priority initScan "hello".data).2.2.2 (by decide) (by decide)
     (by decide) (by decide)⟩

/-- C6: any media type outside the exact allow-list is rejected with the
format reason, whatever the size — the format check precedes the size
check. -/
theorem c6_format_reject (t : String) (size : Nat) (h : t ∉ SUPPORTED_FORMATS) :
    validateFile t size =
      some "Unsupported file format. Please use JPEG, PNG, GIF, or WebP." := by
  unfold validateFile
  rw [if_pos]
  intro hct
  exact h (List.mem_of_elem_eq_true hct)

theorem c6_witness :
    validateFile "text/plain" 0 =
      some "Unsupported file format. Please use JPEG, PNG, GIF, or WebP." :=
  c6_format_reject "text/plain" 0 (by decide)

/-- C7: for an allow-listed media type the validator accepts exactly the
sizes up to and including 5242880 bytes and rejects larger sizes with the
size reason. -/
theorem c7_size_policy (t : String) (size : Nat) (h : t ∈ SUPPORTED_FORMATS) :
    validateFile t size =
      (if size ≤ MAX_FILE_SIZE then none else some "File size exceeds 5MB limit.") := by
  unfold validateFile
  rw [if_neg (by intro hcc; exact hcc (List.elem_eq_true_of_mem h))]
  by_cases hs : size ≤ MAX_FILE_SIZE
  · rw [if_neg (by omega), if_pos hs]
  · rw [if_pos (by omega), if_neg hs]

theorem c7_witness :
    validateFile "image/png" 5242880 = none ∧
    validateFile "image/png" 5242881 = some "File size exceeds 5MB limit." :=
  ⟨(c7_size_policy "image/png" 5242880 (by decide)).trans (by rfl),
   (c7_size_policy "image/png" 5242881 (by decide)).trans (by rfl)⟩

/-- C8: when the structured parse throws and the line scan collects nothing,
the normalizer returns the whole raw text as the single uxInsights entry and
leaves the other sequences empty; in particular the empty input gives
uxInsights=[""]. -/
theorem c8_degenerate (s : String) (h : structuredAttempt s = none)
    (hemp : ((scanLines s).uxInsights.isEmpty && (scanLines s).visualDesign.isEmpty &&
      (scanLines s).bestPractices.isEmpty) = true) :
    parseOpenRouterResponse s =
      ⟨Json.arr [Json.str s], Json.arr [], Json.arr [], Json.arr []⟩ := by
  rw [parseOpenRouterResponse_fallback s h]
  unfold fallbackParse
  rw [if_pos hemp]

theorem c8_witness :
    parseOpenRouterResponse "" =
      ⟨Json.arr [Json.str ""], Json.arr [], Json.arr [], Json.arr []⟩ :=
  c8_degenerate "" rfl rfl

/-- C9: whenever the structured path is not taken, both the scan result and
the degenerate fallback carry an empty annotations array — annotations can
only be populated via the structured-first path. -/
theorem c9_annotations_empty (s : String) (h : structuredAttempt s = none) :
    (parseOpenRouterResponse s).annotations = Json.arr [] := by
  rw [parseOpenRouterResponse_fallback s h]
  unfold fallbackParse
  split
  · rfl
  · rfl

theorem c9_witness :
    (parseOpenRouterResponse "plain prose").annotations = Json.arr [] :=
  c9_annotations_empty "plain prose" rfl

/-- C10: an input that parses as valid JSON to a non-null value carrying none
of the four expected fields takes the structured path and yields a result
with all four sequences empty; the original text is not preserved. -/
theorem c10_nonrecord_empty (s : String) (j : Json) (h : jsonParse s = some j)
    (hnn : j ≠ Json.null)
    (h1 : getMem j "uxInsights" = none) (h2 : getMem j "visualDesign" = none)
    (h3 : getMem j "bestPractices" = none) (h4 : getMem j "annotations" = none) :
    parseOpenRouterResponse s =
      ⟨Json.arr [], Json.arr [], Json.arr [], Json.arr []⟩ := by
  apply parseOpenRouterResponse_structured
  rw [structuredAttempt_some s j h hnn, h1, h2, h3, h4]
  rfl

theorem c10_witness :
    parseOpenRouterResponse "[]" =
      ⟨Json.arr [], Json.arr [], Json.arr [], Json.arr []⟩ :=
  c10_nonrecord_empty "[]" (Json.arr []) rfl
    (by intro hh; exact Json.noConfusion hh) rfl rfl rfl rfl

end UXMentor
